import Mathlib

/-
Verification of the build_exact build engine (src/dag.rs, src/dag_walker.rs,
src/buildinfo.rs) against its natural-language specification.

The Rust source is shallowly embedded: each Rust function becomes an
executable Lean definition over the same data.  Node indices are Nat
(petgraph NodeIndex), file modification times are Int, in seconds
relative to SystemTime::UNIX_EPOCH = 0 (SystemTime admits pre-epoch
values, so the epoch seed of the source's output-mtime fold can really
clamp), the filesystem is a function String -> Option Int where none
models a failed fs::metadata / modified() call, and child-process results
are supplied by an oracle (Option Bool: none = spawn failure, some b =
exit status with success b).
-/

set_option maxRecDepth 8000

namespace BuildExact

/-- Schema type from src/buildinfo.rs: a build command. -/
structure BuildCommand where
  command : List String
  inputs : List String
  outputs : List String
  working_dir : String
  env : List (String × String)
deriving DecidableEq, Repr

/-- Schema type from src/buildinfo.rs: a test command (no outputs). -/
structure TestCommand where
  command : List String
  inputs : List String
  working_dir : String
  env : List (String × String)
deriving DecidableEq, Repr

/-- Schema type from src/buildinfo.rs: the build description.  The Rust
`tests` field is a HashMap; it is embedded as an association list whose
order also fixes the stable test ordering that `BuildDag::new` obtains
from `info.tests.keys()`. -/
structure BuildInfo where
  commands : List BuildCommand
  tests : List (String × TestCommand)
  sandboxed_dirs : List String
deriving DecidableEq, Repr

/-- Node payload from src/dag.rs (`enum CommandIndex`). -/
inductive CommandIndex where
  | BuildCommandIndex (i : Nat)
  | TestCommandIndex (i : Nat)
deriving DecidableEq, Repr

/-- The dependency DAG from src/dag.rs (`struct BuildDag`).  `nodes` lists
the petgraph node weights in node-index order; `edges` lists
(source, target, input index) triples. -/
structure BuildDag where
  nodes : List CommandIndex
  edges : List (Nat × Nat × Nat)
  output_file_generators : List (String × Nat)
  input_file_consumers : List (String × List Nat)
  test_names : List String
  build_command_node_index : List Nat
  test_command_node_index : List Nat
deriving DecidableEq, Repr

/-- Target variants from src/dag.rs (`enum Target`). -/
inductive Target where
  | Output (path : String)
  | OutputsThatDependOnFile (path : String)
  | AllOutputs
  | Test (name : String)
  | TestsThatDependOnFile (path : String)
  | AllTests
deriving DecidableEq, Repr

/-- Association-list lookup (embeds HashMap::get; first binding wins and
the construction below never inserts a key twice). -/
def afind {α : Type} (m : List (String × α)) (k : String) : Option α :=
  match m with
  | [] => none
  | (k2, v) :: rest => if k2 = k then some v else afind rest k

/-- Association-list lookup for Nat keys (scheduler's remaining map). -/
def lookupN (m : List (Nat × Nat)) (k : Nat) : Option Nat :=
  match m with
  | [] => none
  | (k2, v) :: rest => if k2 = k then some v else lookupN rest k

/-! ## Path validation (src/dag.rs, `ensure_absolute_normalised_paths`) -/

/-- Split a character list on the path separator. -/
def splitSlashAux : List Char → List Char → List (List Char)
  | [], acc => [acc.reverse]
  | c :: rest, acc =>
    if c = '/' then acc.reverse :: splitSlashAux rest []
    else splitSlashAux rest (c :: acc)

/-- Non-empty path segments, in order. -/
def pathSegments (p : String) : List String :=
  ((splitSlashAux p.toList []).map (fun cs => String.mk cs)).filter (fun s => s ≠ "")

/-- Rust `Path::is_absolute` on unix: the path starts with the separator. -/
def isAbsolutePath (p : String) : Bool :=
  match p.toList with
  | [] => false
  | c :: _ => c = '/'

/-- Body components of a path as Rust `Path::iter` yields them (the root
component is omitted here; it can never equal "." or ".."): empty
segments are dropped, and "." segments are normalized away except when
the path starts with ".". -/
def rustPathComponents (p : String) : List String :=
  match pathSegments p with
  | [] => []
  | first :: rest =>
    if first = "." ∧ isAbsolutePath p = false then first :: rest.filter (fun s => s ≠ ".")
    else (first :: rest).filter (fun s => s ≠ ".")

/-- `check_path` from src/dag.rs: absolute, and no ".." or "." component. -/
def check_path (p : String) : Except String Unit :=
  if isAbsolutePath p = false then
    Except.error ("Path \"" ++ p ++ "\" must be absolute.")
  else if (rustPathComponents p).any (fun c => c = ".." ∨ c = ".") then
    Except.error ("Path \"" ++ p ++ "\" must be canonical (no .. or .).")
  else Except.ok ()

def checkPaths : List String → Except String Unit
  | [] => Except.ok ()
  | p :: rest => do
    check_path p
    checkPaths rest

def checkCommandPaths : List BuildCommand → Except String Unit
  | [] => Except.ok ()
  | c :: rest => do
    checkPaths c.inputs
    checkPaths c.outputs
    check_path c.working_dir
    checkCommandPaths rest

/-- `ensure_absolute_normalised_paths` from src/dag.rs.  Note that the
source iterates `info.commands` and `info.sandboxed_dirs` only; paths in
`info.tests` are never visited. -/
def ensure_absolute_normalised_paths (info : BuildInfo) : Except String Unit := do
  checkCommandPaths info.commands
  checkPaths info.sandboxed_dirs

/-! ## Output-to-producer map (first loop of `BuildDag::new`) -/

def dupOutputMsg (o : String) : String :=
  "File \x27" ++ o ++ "\x27 is specified as the output of more than one command."

/-- Insert one command's outputs into the output-to-producer map, failing
on a key that is already present (HashMap::insert returning Some). -/
def insertOutputs (node : Nat) (m : List (String × Nat)) :
    List String → Except String (List (String × Nat))
  | [] => Except.ok m
  | o :: rest =>
    match afind m o with
    | some _ => Except.error (dupOutputMsg o)
    | none => insertOutputs node (m ++ [(o, node)]) rest

def buildOutputsMapAux (node : Nat) (m : List (String × Nat)) :
    List BuildCommand → Except String (List (String × Nat))
  | [] => Except.ok m
  | c :: rest =>
    match insertOutputs node m c.outputs with
    | Except.error e => Except.error e
    | Except.ok m2 => buildOutputsMapAux (node + 1) m2 rest

def buildOutputsMap (cmds : List BuildCommand) : Except String (List (String × Nat)) :=
  buildOutputsMapAux 0 [] cmds

/-! ## Edges and consumer map (second and fourth loops of `BuildDag::new`) -/

/-- Edges contributed by one consumer node: one edge per input that some
command produces, tagged with the input's position. -/
def commandInputEdges (gens : List (String × Nat)) (node : Nat)
    (inputs : List String) : List (Nat × Nat × Nat) :=
  inputs.enum.filterMap (fun p =>
    match afind gens p.2 with
    | some parent => some (parent, node, p.1)
    | none => none)

/-- `input_file_consumers.entry(input).or_default().push(node)`. -/
def addConsumer (m : List (String × List Nat)) (f : String) (n : Nat) :
    List (String × List Nat) :=
  match m with
  | [] => [(f, [n])]
  | (g, l) :: rest =>
    if g = f then (g, l ++ [n]) :: rest else (g, l) :: addConsumer rest f n

def addConsumers (m : List (String × List Nat)) (node : Nat)
    (inputs : List String) : List (String × List Nat) :=
  inputs.foldl (fun acc inp => addConsumer acc inp node) m

/-! ## Cycle check (petgraph `is_cyclic_directed`) -/

def outTargets (es : List (Nat × Nat × Nat)) (n : Nat) : List Nat :=
  es.filterMap (fun e => if e.1 = n then some e.2.1 else none)

/-- Nodes reachable from the pending stack (fuelled depth-first search
with an accumulator of visited nodes). -/
def reachSet (es : List (Nat × Nat × Nat)) :
    Nat → List Nat → List Nat → List Nat
  | 0, _, acc => acc
  | _ + 1, [], acc => acc
  | fuel + 1, n :: rest, acc =>
    if n ∈ acc then reachSet es fuel rest acc
    else reachSet es fuel (outTargets es n ++ rest) (n :: acc)

/-- A directed graph on nodes 0..numNodes-1 is cyclic iff some edge closes
a path back to its source. -/
def is_cyclic_directed (numNodes : Nat) (es : List (Nat × Nat × Nat)) : Bool :=
  (List.range numNodes).any (fun n =>
    es.any (fun e =>
      decide (e.1 = n ∧ n ∈ reachSet es ((numNodes + 1) * (es.length + 1) + 1) [e.2.1] [])))

/-! ## Graph construction (`BuildDag::new`) -/

/-- All graph edges: one per produced input of each build command, then of
each test, consumers numbered after the build nodes. -/
def dagEdges (info : BuildInfo) (gens : List (String × Nat)) : List (Nat × Nat × Nat) :=
  info.commands.enum.flatMap (fun p => commandInputEdges gens p.1 p.2.inputs)
    ++ info.tests.enum.flatMap (fun p =>
        commandInputEdges gens (info.commands.length + p.1) p.2.2.inputs)

/-- The input-to-consumers index over build commands, then tests. -/
def dagConsumers (info : BuildInfo) : List (String × List Nat) :=
  info.tests.enum.foldl
    (fun acc p => addConsumers acc (info.commands.length + p.1) p.2.2.inputs)
    (info.commands.enum.foldl (fun acc p => addConsumers acc p.1 p.2.inputs) [])

/-- The pure tail of `BuildDag::new` once the output map exists: add edges,
record consumers, add test nodes, and reject cyclic graphs. -/
def mkDag (info : BuildInfo) (gens : List (String × Nat)) : Except String BuildDag :=
  if is_cyclic_directed (info.commands.length + info.tests.length) (dagEdges info gens) then
    Except.error "Build graph is cyclic"
  else
    Except.ok
      { nodes := (List.range info.commands.length).map CommandIndex.BuildCommandIndex
          ++ (List.range info.tests.length).map CommandIndex.TestCommandIndex
        edges := dagEdges info gens
        output_file_generators := gens
        input_file_consumers := dagConsumers info
        test_names := info.tests.map Prod.fst
        build_command_node_index := List.range info.commands.length
        test_command_node_index :=
          (List.range info.tests.length).map (fun t => info.commands.length + t) }

/-- `BuildDag::new` from src/dag.rs: validate paths, build the
output-to-producer map (failing on duplicate outputs), wire the edges and
reject cycles. -/
def BuildDag.new (info : BuildInfo) : Except String BuildDag :=
  match ensure_absolute_normalised_paths info with
  | Except.error e => Except.error e
  | Except.ok _ =>
    match buildOutputsMap info.commands with
    | Except.error e => Except.error e
    | Except.ok gens => mkDag info gens

/-! ## Graph walker (src/dag_walker.rs, `walk_recursively`) -/

/-- Incoming neighbours of a node (sources of in-edges, once per edge). -/
def inNbrs (bd : BuildDag) (n : Nat) : List Nat :=
  bd.edges.filterMap (fun e => if e.2.1 = n then some e.1 else none)

/-- Outgoing neighbours of a node (targets of out-edges, once per edge). -/
def outNbrs (bd : BuildDag) (n : Nat) : List Nat :=
  bd.edges.filterMap (fun e => if e.1 = n then some e.2.1 else none)

/-- `walk_recursively`: pop a pending node, call the visitor, and push the
node's neighbours in the chosen direction when the visitor returns true.
The visitor threads the caller's mutable set through as state.  Fuelled;
every use below supplies fuel exceeding the walk's step count. -/
def walkRec (nbrs : Nat → List Nat) (visit : List Nat → Nat → List Nat × Bool) :
    Nat → List Nat → List Nat → List Nat
  | 0, _, s => s
  | _ + 1, [], s => s
  | fuel + 1, n :: rest, s =>
    let r := visit s n
    if r.2 then walkRec nbrs visit fuel (nbrs n ++ rest) r.1
    else walkRec nbrs visit fuel rest r.1

/-- HashSet::insert: returns the set and whether the element was new. -/
def hsInsert (s : List Nat) (n : Nat) : List Nat × Bool :=
  if n ∈ s then (s, false) else (n :: s, true)

def walkFuel (bd : BuildDag) : Nat :=
  (bd.nodes.length + 1) * (bd.edges.length + 1) + 1

/-! ## Target resolution (src/dag.rs, `BuildDag::add_target_commands`) -/

/-- `BuildDag::add_target_commands`: extend the selected set `toSet` (the Rust `to`) with the
nodes implied by one target.  Each arm mirrors the source, including the
visitor return values of the two downstream walks. -/
def add_target_commands (bd : BuildDag) (target : Target) (toSet : List Nat) :
    Except String (List Nat) :=
  match target with
  | Target.Output path =>
    match afind bd.output_file_generators path with
    | none => Except.error ("No command generates output \"" ++ path ++ "\"")
    | some g => Except.ok (walkRec (inNbrs bd) hsInsert (walkFuel bd) [g] toSet)
  | Target.OutputsThatDependOnFile path =>
    match afind bd.input_file_consumers path with
    | none => Except.error ("No command use file \"" ++ path ++ "\"")
    | some consumers =>
      Except.ok (consumers.foldl
        (fun acc cn =>
          walkRec (outNbrs bd)
            (fun s n =>
              match bd.nodes.get? n with
              | some (CommandIndex.BuildCommandIndex _) =>
                let r := hsInsert s n
                if r.2 then (walkRec (inNbrs bd) hsInsert (walkFuel bd) [n] r.1, true)
                else (r.1, false)
              | some (CommandIndex.TestCommandIndex _) => (s, false)
              | none => (s, false))
            (walkFuel bd) [cn] acc)
        toSet)
  | Target.AllOutputs =>
    Except.ok (bd.nodes.enum.foldl
      (fun s p =>
        match p.2 with
        | CommandIndex.BuildCommandIndex _ => (hsInsert s p.1).1
        | CommandIndex.TestCommandIndex _ => s)
      toSet)
  | Target.Test name =>
    match bd.test_names.findIdx? (fun n => n == name) with
    | none => Except.error ("Test " ++ name ++ " not found")
    | some ti =>
      match bd.test_command_node_index.get? ti with
      | none => Except.error "index out of bounds"
      | some tn => Except.ok (walkRec (inNbrs bd) hsInsert (walkFuel bd) [tn] toSet)
  | Target.TestsThatDependOnFile path =>
    match afind bd.output_file_generators path with
    | none => Except.error ("No command generates output \"" ++ path ++ "\"")
    | some g =>
      let testsToRun := walkRec (outNbrs bd)
        (fun s n =>
          match bd.nodes.get? n with
          | some (CommandIndex.BuildCommandIndex _) => (s, false)
          | some (CommandIndex.TestCommandIndex _) => ((hsInsert s n).1, true)
          | none => (s, false))
        (walkFuel bd) [g] []
      Except.ok (testsToRun.foldl
        (fun acc t => walkRec (inNbrs bd) hsInsert (walkFuel bd) [t] acc) toSet)
  | Target.AllTests =>
    Except.ok (bd.test_command_node_index.foldl
      (fun acc tn => walkRec (inNbrs bd) hsInsert (walkFuel bd) [tn] acc) toSet)

/-! ## Up-to-date check (src/dag.rs, `rerun_necessary`) -/

/-- First loop of `rerun_necessary`: fold the outputs' mtimes with max,
starting from UNIX_EPOCH (0); none if any metadata or mtime read fails.
Mtimes are Int, so a pre-epoch output mtime is genuinely clamped by the
seed, as in the source. -/
def maxOutMtime (fs : String → Option Int) : List String → Int → Option Int
  | [], acc => some acc
  | f :: rest, acc =>
    match fs f with
    | none => none
    | some m => maxOutMtime fs rest (max acc m)

/-- Second loop of `rerun_necessary`: true if some input's mtime is
unreadable or strictly newer than the max output mtime. -/
def anyInputNewer (fs : String → Option Int) : List String → Int → Bool
  | [], _ => false
  | f :: rest, maxOut =>
    match fs f with
    | none => true
    | some m => if maxOut < m then true else anyInputNewer fs rest maxOut

/-- `rerun_necessary` from src/dag.rs. -/
def rerun_necessary (fs : String → Option Int) (c : BuildCommand) : Bool :=
  match maxOutMtime fs c.outputs 0 with
  | none => true
  | some maxOut => anyInputNewer fs c.inputs maxOut

/-! ## Child-process argv (src/dag.rs, `run_command_if_necessary` / `run_test`)

The spawned argv is the program passed to `Command::new` followed by every
`arg`/`args` call, in order; `c.args(command.command.iter().skip(1))` runs
in both the sandbox and the no-sandbox branch. -/

def spawned_argv_build (sandboxed_dirs : List String) (no_sandbox : Bool)
    (c : BuildCommand) : List String :=
  (if no_sandbox then c.command.take 1
   else ["sandbox", "--sandbox"] ++ sandboxed_dirs ++ ["--allow-read"] ++ c.inputs
     ++ ["--allow-write"] ++ c.outputs ++ ["--"] ++ c.command)
  ++ c.command.drop 1

def spawned_argv_test (sandboxed_dirs : List String) (no_sandbox : Bool)
    (c : TestCommand) : List String :=
  (if no_sandbox then c.command.take 1
   else ["sandbox", "--sandbox"] ++ sandboxed_dirs ++ ["--allow-read"] ++ c.inputs
     ++ ["--"] ++ c.command)
  ++ c.command.drop 1

/-- Modelled from the spec (section 4.4 Command invocation), for comparison
with `spawned_argv_build`: the sandbox argv with the original command as
the final tokens and nothing after it. -/
def spec_sandbox_argv_build (sandboxed_dirs : List String) (c : BuildCommand) :
    List String :=
  ["sandbox", "--sandbox"] ++ sandboxed_dirs ++ ["--allow-read"] ++ c.inputs
    ++ ["--allow-write"] ++ c.outputs ++ ["--"] ++ c.command

/-- Modelled from the spec (section 4.4 Command invocation), for comparison
with `spawned_argv_test`: same, without the allow-write section. -/
def spec_sandbox_argv_test (sandboxed_dirs : List String) (c : TestCommand) :
    List String :=
  ["sandbox", "--sandbox"] ++ sandboxed_dirs ++ ["--allow-read"] ++ c.inputs
    ++ ["--"] ++ c.command

/-! ## Command execution (src/dag.rs, `run_command_if_necessary`, `run_test`)

`outcome` is the child-process oracle: none = spawning failed, some b =
the child exited with success b. -/

/-- `run_command_if_necessary`: skip if up to date, otherwise run; a
non-success exit is a fatal error.  Returns whether the command ran. -/
def run_command_if_necessary (fs : String → Option Int) (outcome : Option Bool)
    (c : BuildCommand) : Except String Bool :=
  if rerun_necessary fs c = false then Except.ok false
  else if c.command = [] then Except.error "Command is empty"
  else
    match outcome with
    | none => Except.error "spawn failed"
    | some true => Except.ok true
    | some false => Except.error "Build command failed"

/-- `run_test`: always runs; returns the exit status' success flag, which
the caller only logs. -/
def run_test (outcome : Option Bool) (c : TestCommand) : Except String Bool :=
  if c.command = [] then Except.error "Command is empty"
  else
    match outcome with
    | none => Except.error "spawn failed"
    | some ok => Except.ok ok

/-! ## Scheduler (src/dag.rs, `BuildDag::build`) -/

/-- Child-process oracle for a whole run. -/
structure ExecEnv where
  fs : String → Option Int
  buildOutcome : Nat → Option Bool
  testOutcome : Nat → Option Bool

/-- Scheduler state: the ready heap, the remaining-dependencies map, the
dispatch order so far, the logged test failures, and whether a fatal
error (or an internal expect/assert failure) ended the loop. -/
structure SchedState where
  ready : List Nat
  remaining : List (Nat × Nat)
  executed : List Nat
  failedTests : List Nat
  aborted : Option String
deriving Repr

/-- Seed the scheduler: leaf nodes go on the ready heap, everything else
into the remaining-dependencies map keyed by its total in-edge count. -/
def indeg (es : List (Nat × Nat × Nat)) (n : Nat) : Nat :=
  (es.filter (fun e => e.2.1 = n)).length

def initSched (es : List (Nat × Nat × Nat)) : List Nat → List Nat × List (Nat × Nat)
  | [] => ([], [])
  | n :: rest =>
    let r := initSched es rest
    if indeg es n = 0 then (n :: r.1, r.2) else (r.1, (n, indeg es n) :: r.2)

/-- BinaryHeap::pop on a max-heap of node indices. -/
def popMax : List Nat → Option (Nat × List Nat)
  | [] => none
  | n :: rest =>
    match popMax rest with
    | none => some (n, [])
    | some (m, rest2) => if m ≤ n then some (n, rest) else some (m, n :: rest2)

def removeKey (m : List (Nat × Nat)) (k : Nat) : List (Nat × Nat) :=
  match m with
  | [] => []
  | (k2, v) :: rest => if k2 = k then removeKey rest k else (k2, v) :: removeKey rest k

def setKey (m : List (Nat × Nat)) (k : Nat) (v : Nat) : List (Nat × Nat) :=
  match m with
  | [] => []
  | (k2, v2) :: rest => if k2 = k then (k2, v) :: setKey rest k v else (k2, v2) :: setKey rest k v

/-- The dependants loop after a node finishes: for every out-edge target in
the selected set, decrement its counter; at zero, move it to the ready
heap.  none models the `expect("Internal logic error 5")` panic (or a
usize underflow) when the counter is missing or already zero. -/
def processChildren (selected : List Nat) :
    List Nat → List (Nat × Nat) → List Nat → Option (List (Nat × Nat) × List Nat)
  | [], rem, rdy => some (rem, rdy)
  | b :: rest, rem, rdy =>
    if b ∈ selected then
      match lookupN rem b with
      | none => none
      | some 0 => none
      | some 1 => processChildren selected rest (removeKey rem b) (rdy ++ [b])
      | some (k + 2) => processChildren selected rest (setKey rem b (k + 1)) rdy
    else processChildren selected rest rem rdy

/-- Targets of a node's out-edges, once per edge (the neighbour iteration
of the dependants loop). -/
def childTargets (es : List (Nat × Nat × Nat)) (m : Nat) : List Nat :=
  es.filterMap (fun e => if e.1 = m then some e.2.1 else none)

/-- Dispatch one node: look up its weight and run the build command or the
test.  Returns, on success, whether a test failure was logged. -/
def execNode (info : BuildInfo) (bd : BuildDag) (env : ExecEnv) (m : Nat) :
    Except String Bool :=
  match bd.nodes.get? m with
  | none => Except.error "Internal logic error 2"
  | some (CommandIndex.BuildCommandIndex i) =>
    match info.commands.get? i with
    | none => Except.error "index out of bounds"
    | some c =>
      match run_command_if_necessary env.fs (env.buildOutcome i) c with
      | Except.error e => Except.error e
      | Except.ok _ => Except.ok false
  | some (CommandIndex.TestCommandIndex j) =>
    match bd.test_names.get? j with
    | none => Except.error "index out of bounds"
    | some name =>
      match afind (info.tests) name with
      | none => Except.error "index out of bounds"
      | some c =>
        match run_test (env.testOutcome j) c with
        | Except.error e => Except.error e
        | Except.ok ok => Except.ok (!ok)

/-- The scheduling loop of `BuildDag::build`: pop the ready heap, dispatch,
then decrement the dependants.  A fatal error stops the loop with
`aborted` set; running out of fuel returns the state as is (all uses
below supply ample fuel). -/
def runBuild (info : BuildInfo) (bd : BuildDag) (env : ExecEnv)
    (selected : List Nat) : Nat → SchedState → SchedState
  | 0, st => st
  | fuel + 1, st =>
    match popMax st.ready with
    | none => st
    | some (m, rest) =>
      match execNode info bd env m with
      | Except.error e =>
        { st with ready := rest, executed := st.executed ++ [m], aborted := some e }
      | Except.ok testFailed =>
        let st1 : SchedState :=
          { st with
            ready := rest
            executed := st.executed ++ [m]
            failedTests := if testFailed then st.failedTests ++ [m] else st.failedTests }
        match processChildren selected (childTargets bd.edges m) st1.remaining st1.ready with
        | none => { st1 with aborted := some "Internal logic error 5" }
        | some r => runBuild info bd env selected fuel
            { st1 with remaining := r.1, ready := r.2 }

/-- Selection plus scheduling from a fresh state (the body of
`BuildDag::build` after target resolution). -/
def runSchedule (info : BuildInfo) (bd : BuildDag) (env : ExecEnv)
    (selected : List Nat) (fuel : Nat) : SchedState :=
  let r := initSched bd.edges selected
  runBuild info bd env selected fuel
    { ready := r.1, remaining := r.2, executed := [], failedTests := [], aborted := none }

/-! ## Concrete build descriptions used by the theorems below -/

/-- Spec scenario 5: A produces /b/mid from /b/src, B produces /b/final
from /b/mid, test T reads /b/final. -/
def info1 : BuildInfo :=
  { commands :=
      [ { command := ["a"], inputs := ["/b/src"], outputs := ["/b/mid"], working_dir := "/b", env := [] }
      , { command := ["b"], inputs := ["/b/mid"], outputs := ["/b/final"], working_dir := "/b", env := [] } ]
    tests := [("T", { command := ["t"], inputs := ["/b/final"], working_dir := "/b", env := [] })]
    sandboxed_dirs := ["/b"] }

/-- The graph `BuildDag::new` builds for `info1`. -/
def bd1 : BuildDag :=
  { nodes := [CommandIndex.BuildCommandIndex 0, CommandIndex.BuildCommandIndex 1,
      CommandIndex.TestCommandIndex 0]
    edges := [(0, 1, 0), (1, 2, 0)]
    output_file_generators := [("/b/mid", 0), ("/b/final", 1)]
    input_file_consumers := [("/b/src", [0]), ("/b/mid", [1]), ("/b/final", [2])]
    test_names := ["T"]
    build_command_node_index := [0, 1]
    test_command_node_index := [2] }

/-- Two-command chain: A produces /x/b from /x/a, B produces /x/c from /x/b. -/
def info6 : BuildInfo :=
  { commands :=
      [ { command := ["a"], inputs := ["/x/a"], outputs := ["/x/b"], working_dir := "/x", env := [] }
      , { command := ["b"], inputs := ["/x/b"], outputs := ["/x/c"], working_dir := "/x", env := [] } ]
    tests := []
    sandboxed_dirs := ["/x"] }

/-- The graph `BuildDag::new` builds for `info6`. -/
def bd6 : BuildDag :=
  { nodes := [CommandIndex.BuildCommandIndex 0, CommandIndex.BuildCommandIndex 1]
    edges := [(0, 1, 0)]
    output_file_generators := [("/x/b", 0), ("/x/c", 1)]
    input_file_consumers := [("/x/a", [0]), ("/x/b", [1])]
    test_names := []
    build_command_node_index := [0, 1]
    test_command_node_index := [] }

/-- An oracle under which every input is stale and every child succeeds. -/
def envTrivial : ExecEnv :=
  { fs := fun _ => none, buildOutcome := fun _ => some true, testOutcome := fun _ => some true }

/-- A description whose only test has a relative input and working dir. -/
def info3 : BuildInfo :=
  { commands := []
    tests := [("T", { command := ["t"], inputs := ["rel/path"], working_dir := "also/relative", env := [] })]
    sandboxed_dirs := [] }

/-- The graph `BuildDag::new` builds for `info3`. -/
def bd3 : BuildDag :=
  { nodes := [CommandIndex.TestCommandIndex 0]
    edges := []
    output_file_generators := []
    input_file_consumers := [("rel/path", [0])]
    test_names := ["T"]
    build_command_node_index := []
    test_command_node_index := [0] }

/-- The same relative input on a build command instead of a test. -/
def info3b : BuildInfo :=
  { commands := [ { command := ["t"], inputs := ["rel/path"], outputs := [], working_dir := "/w", env := [] } ]
    tests := []
    sandboxed_dirs := [] }

/-- One command that lists the same output path twice. -/
def info8cex : BuildInfo :=
  { commands := [ { command := ["c"], inputs := [], outputs := ["/x/out", "/x/out"], working_dir := "/x", env := [] } ]
    tests := []
    sandboxed_dirs := [] }

/-- A build command with no declared outputs and no declared inputs. -/
def cmdNoOutputs : BuildCommand :=
  { command := ["x"], inputs := [], outputs := [], working_dir := "/", env := [] }

/-- A build command with no declared outputs and one input whose mtime is
exactly UNIX_EPOCH. -/
def cmdEpochInput : BuildCommand :=
  { command := ["x"], inputs := ["/a/in"], outputs := [], working_dir := "/", env := [] }

def cmdGcc : BuildCommand :=
  { command := ["gcc", "-c", "x.c"], inputs := ["/s/x.c"], outputs := ["/s/x.o"], working_dir := "/s", env := [] }

def testRun : TestCommand :=
  { command := ["run", "t"], inputs := ["/s/t"], working_dir := "/s", env := [] }

/-- An empty-argv build command with one declared output, and an
empty-argv test, both accepted by graph construction. -/
def info10 : BuildInfo :=
  { commands := [ { command := [], inputs := [], outputs := ["/a/out"], working_dir := "/a", env := [] } ]
    tests := [("T", { command := [], inputs := [], working_dir := "/a", env := [] })]
    sandboxed_dirs := ["/a"] }

/-- The graph `BuildDag::new` builds for `info10`. -/
def bd10 : BuildDag :=
  { nodes := [CommandIndex.BuildCommandIndex 0, CommandIndex.TestCommandIndex 0]
    edges := []
    output_file_generators := [("/a/out", 0)]
    input_file_consumers := []
    test_names := ["T"]
    build_command_node_index := [0]
    test_command_node_index := [1] }

def cmd10 : BuildCommand :=
  { command := [], inputs := [], outputs := ["/a/out"], working_dir := "/a", env := [] }

def test10 : TestCommand :=
  { command := [], inputs := [], working_dir := "/a", env := [] }

/-- A filesystem on which /a/out exists. -/
def fsOutFresh : String → Option Int := fun f => if f = "/a/out" then some 5 else none

/-! ## Claim theorems: concrete evaluations -/

/-- C1: the `test_dependencies` resolver, evaluated on spec scenario 5.
The claim says the target `test_dependencies:/b/src` selects exactly
nodes A, B and T.  The code instead (a) fails, because /b/src is a source
file with no entry in `output_file_generators`, and (b) even for the
produced path /b/mid it selects nothing, because the downstream walk
starts at the producer, a build-node, for which the visitor returns
false, so no test is ever collected.  The expected set is reachable via
the `test:T` target, whose closure is exactly nodes 0, 1, 2. -/
theorem c1_tests_that_depend_on_selects_nothing :
    BuildDag.new info1 = Except.ok bd1 ∧
    add_target_commands bd1 (Target.TestsThatDependOnFile "/b/src") [] =
      Except.error "No command generates output \"/b/src\"" ∧
    add_target_commands bd1 (Target.TestsThatDependOnFile "/b/mid") [] = Except.ok [] ∧
    add_target_commands bd1 (Target.Test "T") [] = Except.ok [0, 1, 2] := by
  refine ⟨?_, ?_, ?_, ?_⟩ <;> rfl

/-- C2: in sandbox mode the spawned argv is not
`sandbox … -- <original command>` with nothing after it: the source
appends `command[1..]` once more after the full original command (the
`skip(1)` args call runs in both branches), for build commands and for
test commands alike. -/
theorem c2_sandbox_argv_appends_args_twice :
    spawned_argv_build ["/s"] false cmdGcc =
      ["sandbox", "--sandbox", "/s", "--allow-read", "/s/x.c", "--allow-write", "/s/x.o",
       "--", "gcc", "-c", "x.c", "-c", "x.c"] ∧
    spec_sandbox_argv_build ["/s"] cmdGcc =
      ["sandbox", "--sandbox", "/s", "--allow-read", "/s/x.c", "--allow-write", "/s/x.o",
       "--", "gcc", "-c", "x.c"] ∧
    spawned_argv_build ["/s"] false cmdGcc ≠ spec_sandbox_argv_build ["/s"] cmdGcc ∧
    spawned_argv_test ["/s"] false testRun =
      ["sandbox", "--sandbox", "/s", "--allow-read", "/s/t", "--", "run", "t", "t"] ∧
    spawned_argv_test ["/s"] false testRun ≠ spec_sandbox_argv_test ["/s"] testRun := by
  refine ⟨rfl, rfl, ?_, rfl, ?_⟩ <;> decide

/-- C3: graph construction does not fail on a description whose test has
a relative input path and a relative working directory:
`ensure_absolute_normalised_paths` never iterates `info.tests`.  The same
relative path on a build command is rejected, showing the validation
itself works and simply skips the tests. -/
theorem c3_test_paths_not_validated :
    ensure_absolute_normalised_paths info3 = Except.ok () ∧
    BuildDag.new info3 = Except.ok bd3 ∧
    BuildDag.new info3b = Except.error "Path \"rel/path\" must be absolute." := by
  refine ⟨?_, ?_, ?_⟩ <;> rfl

/-- C4: a build command with no declared outputs is not always re-run:
with no inputs, and likewise when the only input's mtime equals
UNIX_EPOCH (the initial max-output accumulator), `rerun_necessary`
returns false and the command is skipped — contrary to the claim and to
the source's own comment that such a command must always be re-run. -/
theorem c4_no_outputs_can_still_be_skipped :
    rerun_necessary (fun _ => none) cmdNoOutputs = false ∧
    rerun_necessary (fun f => if f = "/a/in" then some 0 else none) cmdEpochInput = false := by
  exact ⟨rfl, rfl⟩

/-- C6: for the target `output_dependencies:/x/b` on the chain `info6`,
the selected set is the consumer node 1 alone, although edge (0,1) enters
it: the inner dependency walk starts at a node that was just inserted, so
its first insert returns false and the walk adds nothing.  The scheduler
then never dispatches node 1 and ends with the remaining-dependencies map
non-empty, so the `assert!` at loop exit fails. -/
theorem c6_output_dependencies_not_upstream_closed :
    BuildDag.new info6 = Except.ok bd6 ∧
    add_target_commands bd6 (Target.OutputsThatDependOnFile "/x/b") [] = Except.ok [1] ∧
    ((0, 1, 0) ∈ bd6.edges ∧ (0 : Nat) ∉ ([1] : List Nat)) ∧
    (runSchedule info6 bd6 envTrivial [1] 10).executed = [] ∧
    (runSchedule info6 bd6 envTrivial [1] 10).remaining = [(1, 1)] := by
  refine ⟨?_, ?_, by decide, ?_, ?_⟩ <;> rfl

/-- C10: an empty argv is accepted by graph construction (for a build
command and for a test); `run_command_if_necessary` checks staleness
before emptiness, so an empty build command whose declared output is
fresh is skipped silently, while the same command with a missing output
fails with "Command is empty", as does running the empty test. -/
theorem c10_empty_command_checked_lazily :
    BuildDag.new info10 = Except.ok bd10 ∧
    run_command_if_necessary fsOutFresh none cmd10 = Except.ok false ∧
    run_command_if_necessary (fun _ => none) none cmd10 = Except.error "Command is empty" ∧
    run_test none test10 = Except.error "Command is empty" := by
  refine ⟨?_, ?_, ?_, ?_⟩ <;> rfl

/-- C8 counterexample: a description with a single command that lists
/x/out twice still fails with the duplicate-output error, although no two
commands share an output path — the check rejects any output declared
more than once, not only outputs shared between two commands. -/
theorem c8_single_command_duplicate_output :
    info8cex.commands.length = 1 ∧
    BuildDag.new info8cex = Except.error (dupOutputMsg "/x/out") := by
  exact ⟨rfl, rfl⟩

/-! ## C5: the up-to-date check, characterised -/

/-- The fold the source computes over a file list's mtimes: max, seeded
at UNIX_EPOCH (0).  For the outputs this seed clamps pre-epoch mtimes;
unreadable entries contribute the seed (only used where every entry is
readable). -/
def specMax (fs : String → Option Int) (l : List String) : Int :=
  l.foldl (fun a f => max a ((fs f).getD 0)) 0

theorem maxOutMtime_of_readable (fs : String → Option Int) (l : List String)
    (h : ∀ f ∈ l, (fs f).isSome) (acc : Int) :
    maxOutMtime fs l acc = some (l.foldl (fun a f => max a ((fs f).getD 0)) acc) := by
  induction l generalizing acc with
  | nil => rfl
  | cons f rest ih =>
    have hf : (fs f).isSome := h f (List.mem_cons_self f rest)
    obtain ⟨m, hm⟩ := Option.isSome_iff_exists.mp hf
    simp only [maxOutMtime, hm, List.foldl_cons, Option.getD_some]
    exact ih (fun g hg => h g (List.mem_cons_of_mem f hg)) (max acc m)

theorem readable_of_maxOutMtime_some (fs : String → Option Int) (l : List String)
    (acc v : Int) (h : maxOutMtime fs l acc = some v) : ∀ f ∈ l, (fs f).isSome := by
  induction l generalizing acc with
  | nil => intro f hf; cases hf
  | cons f rest ih =>
    intro g hg
    rcases List.mem_cons.mp hg with hgf | hgr
    · subst hgf
      cases hfs : fs g with
      | none =>
        simp only [maxOutMtime, hfs] at h
        exact Option.noConfusion h
      | some m => simp [hfs]
    · cases hfs : fs f with
      | none =>
        simp only [maxOutMtime, hfs] at h
        exact Option.noConfusion h
      | some m =>
        simp only [maxOutMtime, hfs] at h
        exact ih (max acc m) h g hgr

theorem anyInputNewer_eq_false_iff (fs : String → Option Int) (l : List String) (b : Int) :
    anyInputNewer fs l b = false ↔ ∀ f ∈ l, ∃ m, fs f = some m ∧ m ≤ b := by
  induction l with
  | nil => simp [anyInputNewer]
  | cons f rest ih =>
    cases hfs : fs f with
    | none =>
      simp only [anyInputNewer, hfs]
      constructor
      · intro h; cases h
      · intro h
        obtain ⟨m, hm, _⟩ := h f (List.mem_cons_self f rest)
        rw [hfs] at hm; cases hm
    | some m =>
      simp only [anyInputNewer, hfs]
      by_cases hbm : b < m
      · simp only [if_pos hbm]
        constructor
        · intro h; cases h
        · intro h
          obtain ⟨m2, hm2, hle⟩ := h f (List.mem_cons_self f rest)
          rw [hfs] at hm2
          cases hm2
          omega
      · simp only [if_neg hbm, ih]
        constructor
        · intro h g hg
          rcases List.mem_cons.mp hg with hgf | hgr
          · subst hgf; exact ⟨m, hfs, by omega⟩
          · exact h g hgr
        · intro h g hg
          exact h g (List.mem_cons_of_mem f hg)

theorem foldl_max_le_iff (g : String → Int) (l : List String) (b : Int) :
    ∀ acc, l.foldl (fun a f => max a (g f)) acc ≤ b ↔ acc ≤ b ∧ ∀ f ∈ l, g f ≤ b := by
  induction l with
  | nil => intro acc; simp
  | cons f rest ih =>
    intro acc
    simp only [List.foldl_cons, ih (max acc (g f)), max_le_iff]
    constructor
    · rintro ⟨⟨h1, h2⟩, h3⟩
      refine ⟨h1, fun f2 hf2 => ?_⟩
      rcases List.mem_cons.mp hf2 with he | he
      · subst he; exact h2
      · exact h3 f2 he
    · rintro ⟨h1, h2⟩
      exact ⟨⟨h1, h2 f (List.mem_cons_self f rest)⟩,
        fun f2 hf2 => h2 f2 (List.mem_cons_of_mem f hf2)⟩

theorem le_foldl_max (g : String → Int) (l : List String) :
    ∀ acc : Int, acc ≤ l.foldl (fun a f => max a (g f)) acc := by
  induction l with
  | nil => intro acc; exact le_refl acc
  | cons f rest ih =>
    intro acc
    simp only [List.foldl_cons]
    exact le_trans (le_max_left acc (g f)) (ih (max acc (g f)))

/-- C5 counterexample: with pre-epoch mtimes (output at epoch−10s, input
at epoch−5s, both readable), the maximum input mtime strictly exceeds the
maximum output mtime, yet `rerun_necessary` returns false and the command
is skipped: the source's output fold is seeded at UNIX_EPOCH, so
`max_output_mtime` is clamped to the epoch and the input comparison
`-5 > 0` fails.  This refutes the claim that the command is skipped
exactly when the maximum input mtime is at most the maximum output
mtime. -/
def fsPreEpoch : String → Option Int :=
  fun f => if f = "/o" then some (-10) else if f = "/i" then some (-5) else none

def cmdPreEpoch : BuildCommand :=
  { command := ["x"], inputs := ["/i"], outputs := ["/o"], working_dir := "/", env := [] }

theorem c5_pre_epoch_counterexample :
    cmdPreEpoch.outputs ≠ [] ∧
    (∀ o ∈ cmdPreEpoch.outputs, (fsPreEpoch o).isSome) ∧
    (∀ i ∈ cmdPreEpoch.inputs, (fsPreEpoch i).isSome) ∧
    fsPreEpoch "/o" = some (-10) ∧
    fsPreEpoch "/i" = some (-5) ∧
    ¬ ((-5 : Int) ≤ (-10 : Int)) ∧
    rerun_necessary fsPreEpoch cmdPreEpoch = false := by
  refine ⟨by decide, by decide, by decide, rfl, rfl, by decide, rfl⟩

/-- C5, corrected: for a build command with at least one declared output,
the command is skipped (rerun_necessary = false) exactly when every
output and every input has a readable mtime and the maximum input mtime
is at most the epoch-clamped maximum output mtime — both maxima are the
source's folds seeded at UNIX_EPOCH, so a pre-epoch output mtime is
clamped to the epoch; ties count as up to date, and any unreadable mtime
or input strictly newer than that bound forces a re-run.  For mtimes at
or after the epoch this coincides with the original claim. -/
theorem c5_skip_iff_up_to_date (fs : String → Option Int) (c : BuildCommand)
    (houts : c.outputs ≠ []) :
    rerun_necessary fs c = false ↔
      ((∀ o ∈ c.outputs, (fs o).isSome) ∧ (∀ i ∈ c.inputs, (fs i).isSome) ∧
       specMax fs c.inputs ≤ specMax fs c.outputs) := by
  clear houts
  have h0 : (0 : Int) ≤ specMax fs c.outputs :=
    le_foldl_max (fun f => (fs f).getD 0) c.outputs 0
  constructor
  · intro hrr
    cases hmo : maxOutMtime fs c.outputs 0 with
    | none => rw [rerun_necessary, hmo] at hrr; cases hrr
    | some mo =>
      rw [rerun_necessary, hmo] at hrr
      have hout := readable_of_maxOutMtime_some fs c.outputs 0 mo hmo
      have hmo2 := maxOutMtime_of_readable fs c.outputs hout 0
      rw [hmo] at hmo2
      have hmoeq : mo = specMax fs c.outputs := by
        rw [specMax]; exact Option.some_inj.mp hmo2
      have hin := (anyInputNewer_eq_false_iff fs c.inputs mo).mp hrr
      refine ⟨hout, ?_, ?_⟩
      · intro i hi
        obtain ⟨m, hm, _⟩ := hin i hi
        simp [hm]
      · rw [specMax, foldl_max_le_iff]
        refine ⟨h0, fun f hf => ?_⟩
        obtain ⟨m, hm, hle⟩ := hin f hf
        rw [hm, Option.getD_some, ← hmoeq]
        exact hle
  · rintro ⟨hout, hin, hle⟩
    have hmo := maxOutMtime_of_readable fs c.outputs hout 0
    rw [rerun_necessary, hmo]
    rw [anyInputNewer_eq_false_iff]
    intro f hf
    obtain ⟨m, hm⟩ := Option.isSome_iff_exists.mp (hin f hf)
    refine ⟨m, hm, ?_⟩
    rw [specMax, foldl_max_le_iff] at hle
    have := hle.2 f hf
    rw [hm, Option.getD_some] at this
    exact this

/-- Witness for C5 at a concrete tied-mtime input: output and input both
have mtime 3, and the command is skipped. -/
def fsTie : String → Option Int := fun f => if f = "/o" then some 3 else if f = "/i" then some 3 else none

def cmdTie : BuildCommand :=
  { command := ["x"], inputs := ["/i"], outputs := ["/o"], working_dir := "/", env := [] }

theorem c5_skip_iff_up_to_date_witness :
    cmdTie.outputs ≠ [] ∧
    (rerun_necessary fsTie cmdTie = false ↔
      ((∀ o ∈ cmdTie.outputs, (fsTie o).isSome) ∧ (∀ i ∈ cmdTie.inputs, (fsTie i).isSome) ∧
       specMax fsTie cmdTie.inputs ≤ specMax fsTie cmdTie.outputs)) :=
  ⟨by decide, c5_skip_iff_up_to_date fsTie cmdTie (by decide)⟩

/-! ## C8: duplicate-output detection, characterised -/

/-- All output declarations across the description's commands, in order
and with multiplicity. -/
def declaredOutputs (info : BuildInfo) : List String :=
  info.commands.flatMap (fun c => c.outputs)

/-- Occurrences of a string in a list. -/
def countS : List String → String → Nat
  | [], _ => 0
  | s :: rest, o => (if s = o then 1 else 0) + countS rest o

theorem countS_append (l1 l2 : List String) (o : String) :
    countS (l1 ++ l2) o = countS l1 o + countS l2 o := by
  induction l1 with
  | nil => simp [countS]
  | cons s rest ih => simp [countS, ih]; omega

theorem countS_pos_of_mem {l : List String} {o : String} (h : o ∈ l) :
    1 ≤ countS l o := by
  induction l with
  | nil => cases h
  | cons s rest ih =>
    rcases List.mem_cons.mp h with h2 | h2
    · subst h2; simp [countS]
    · have := ih h2
      simp only [countS]
      omega

theorem countS_eq_zero_of_not_mem {l : List String} {o : String} (h : o ∉ l) :
    countS l o = 0 := by
  induction l with
  | nil => rfl
  | cons s rest ih =>
    have hs : s ≠ o := fun he => h (he ▸ List.mem_cons_self s rest)
    simp only [countS, if_neg hs, Nat.zero_add]
    exact ih (fun hm => h (List.mem_cons_of_mem s hm))

theorem mem_of_countS_pos {l : List String} {o : String} (h : 1 ≤ countS l o) :
    o ∈ l := by
  by_contra hn
  rw [countS_eq_zero_of_not_mem hn] at h
  omega

theorem afind_append_some {α : Type} {m : List (String × α)} (l : List (String × α))
    {k : String} {v : α} (h : afind m k = some v) : afind (m ++ l) k = some v := by
  induction m with
  | nil => cases h
  | cons p rest ih =>
    by_cases hk : p.1 = k
    · simp only [afind, if_pos hk] at h
      simp only [List.cons_append, afind, if_pos hk, h]
    · simp only [afind, if_neg hk] at h
      simp only [List.cons_append, afind, if_neg hk]
      exact ih h

theorem afind_append_none {α : Type} {m : List (String × α)} (l : List (String × α))
    {k : String} (h : afind m k = none) : afind (m ++ l) k = afind l k := by
  induction m with
  | nil => rfl
  | cons p rest ih =>
    by_cases hk : p.1 = k
    · simp only [afind, if_pos hk] at h
      exact Option.noConfusion h
    · simp only [afind, if_neg hk] at h
      simp only [List.cons_append, afind, if_neg hk]
      exact ih h

theorem afind_append_none_left {α : Type} {m l : List (String × α)} {k : String}
    (h : afind (m ++ l) k = none) : afind m k = none := by
  cases hm : afind m k with
  | none => rfl
  | some v => rw [afind_append_some l hm] at h; cases h

theorem afind_single {α : Type} (o : String) (v : α) (k : String) :
    afind [(o, v)] k = if o = k then some v else none := rfl

theorem countS_cons_self (a : String) (l : List String) :
    countS (a :: l) a = 1 + countS l a := by
  show (if a = a then 1 else 0) + countS l a = 1 + countS l a
  rw [if_pos rfl]

theorem countS_cons_ne {a b : String} (h : a ≠ b) (l : List String) :
    countS (a :: l) b = countS l b := by
  show (if a = b then 1 else 0) + countS l b = countS l b
  rw [if_neg h]
  omega

theorem afind_map_self (outs : List String) (node : Nat) {o : String} (h : o ∈ outs) :
    afind (outs.map (fun o2 => (o2, node))) o = some node := by
  induction outs with
  | nil => cases h
  | cons s rest ih =>
    rcases List.mem_cons.mp h with h2 | h2
    · subst h2; simp [afind]
    · by_cases hs : s = o
      · subst hs; simp [afind]
      · simp only [List.map_cons, afind, if_neg hs]
        exact ih h2

theorem afind_map_none (outs : List String) (node : Nat) {o : String} (h : o ∉ outs) :
    afind (outs.map (fun o2 => (o2, node))) o = none := by
  induction outs with
  | nil => rfl
  | cons s rest ih =>
    have hs : s ≠ o := fun he => h (he ▸ List.mem_cons_self s rest)
    simp only [List.map_cons, afind, if_neg hs]
    exact ih (fun hm => h (List.mem_cons_of_mem s hm))

theorem insertOutputs_ok (node : Nat) (m : List (String × Nat)) (outs : List String)
    (m2 : List (String × Nat)) (h : insertOutputs node m outs = Except.ok m2) :
    m2 = m ++ outs.map (fun o => (o, node)) ∧
      ∀ o ∈ outs, afind m o = none ∧ countS outs o ≤ 1 := by
  induction outs generalizing m with
  | nil =>
    simp only [insertOutputs] at h
    cases h
    simp
  | cons o rest ih =>
    simp only [insertOutputs] at h
    cases hfind : afind m o with
    | some v => rw [hfind] at h; cases h
    | none =>
      rw [hfind] at h
      obtain ⟨hshape, hrest⟩ := ih (m ++ [(o, node)]) h
      have hoapp : afind (m ++ [(o, node)]) o = some node := by
        rw [afind_append_none _ hfind, afind_single, if_pos rfl]
      have honotrest : o ∉ rest := by
        intro hmem
        have := (hrest o hmem).1
        rw [hoapp] at this
        cases this
      constructor
      · rw [hshape, List.append_assoc]
        rfl
      · intro r hr
        rcases List.mem_cons.mp hr with h2 | h2
        · subst h2
          refine ⟨hfind, ?_⟩
          rw [countS_cons_self, countS_eq_zero_of_not_mem honotrest]
        · have hor := hrest r h2
          have hro : o ≠ r := by
            intro he
            subst he
            rw [hoapp] at hor
            cases hor.1
          refine ⟨afind_append_none_left hor.1, ?_⟩
          rw [countS_cons_ne hro]
          exact hor.2

theorem insertOutputs_error (node : Nat) (m : List (String × Nat)) (outs : List String)
    (e : String) (h : insertOutputs node m outs = Except.error e) :
    ∃ o ∈ outs, e = dupOutputMsg o ∧ (afind m o ≠ none ∨ 2 ≤ countS outs o) := by
  induction outs generalizing m with
  | nil => simp only [insertOutputs] at h; cases h
  | cons o rest ih =>
    simp only [insertOutputs] at h
    cases hfind : afind m o with
    | some v =>
      rw [hfind] at h
      cases h
      exact ⟨o, List.mem_cons_self o rest, rfl, Or.inl (by simp [hfind])⟩
    | none =>
      rw [hfind] at h
      obtain ⟨r, hr, he, hcase⟩ := ih (m ++ [(o, node)]) h
      refine ⟨r, List.mem_cons_of_mem o hr, he, ?_⟩
      rcases hcase with hne | hc
      · cases hmr : afind m r with
        | some v => exact Or.inl (by simp [hmr])
        | none =>
          rw [afind_append_none _ hmr, afind_single] at hne
          by_cases hor : o = r
          · subst hor
            have hpos := countS_pos_of_mem hr
            refine Or.inr ?_
            rw [countS_cons_self]
            omega
          · rw [if_neg hor] at hne
            exact absurd rfl hne
      · refine Or.inr ?_
        by_cases hor : o = r
        · subst hor
          rw [countS_cons_self]
          omega
        · rw [countS_cons_ne hor]
          exact hc

theorem insertOutputs_exists_ok (node : Nat) (m : List (String × Nat)) (outs : List String)
    (h : ∀ o ∈ outs, afind m o = none ∧ countS outs o ≤ 1) :
    ∃ m2, insertOutputs node m outs = Except.ok m2 := by
  induction outs generalizing m with
  | nil => exact ⟨m, rfl⟩
  | cons o rest ih =>
    have ho := h o (List.mem_cons_self o rest)
    simp only [insertOutputs, ho.1]
    apply ih
    intro r hr
    have hor : o ≠ r := by
      intro he
      subst he
      have hoo := (h o (List.mem_cons_self o rest)).2
      have hpos := countS_pos_of_mem hr
      rw [countS_cons_self] at hoo
      omega
    have hrm := h r (List.mem_cons_of_mem o hr)
    refine ⟨?_, ?_⟩
    · rw [afind_append_none _ hrm.1, afind_single, if_neg hor]
    · have := hrm.2
      rw [countS_cons_ne hor] at this
      exact this

theorem buildOutputsMapAux_ext (node : Nat) (m : List (String × Nat))
    (cmds : List BuildCommand) (m2 : List (String × Nat))
    (h : buildOutputsMapAux node m cmds = Except.ok m2) :
    ∃ ext, m2 = m ++ ext := by
  induction cmds generalizing node m with
  | nil =>
    simp only [buildOutputsMapAux] at h
    cases h
    exact ⟨[], by simp⟩
  | cons c rest ih =>
    simp only [buildOutputsMapAux] at h
    cases hins : insertOutputs node m c.outputs with
    | error e => rw [hins] at h; cases h
    | ok mm =>
      rw [hins] at h
      obtain ⟨hshape, _⟩ := insertOutputs_ok node m c.outputs mm hins
      obtain ⟨ext, hext⟩ := ih (node + 1) mm h
      exact ⟨c.outputs.map (fun o => (o, node)) ++ ext, by rw [hext, hshape, List.append_assoc]⟩

theorem buildOutputsMapAux_ok_count (node : Nat) (m : List (String × Nat))
    (cmds : List BuildCommand) (m2 : List (String × Nat))
    (h : buildOutputsMapAux node m cmds = Except.ok m2) :
    ∀ o ∈ cmds.flatMap (fun c => c.outputs),
      afind m o = none ∧ countS (cmds.flatMap (fun c => c.outputs)) o ≤ 1 := by
  induction cmds generalizing node m with
  | nil => intro o ho; cases ho
  | cons c rest ih =>
    simp only [buildOutputsMapAux] at h
    cases hins : insertOutputs node m c.outputs with
    | error e => rw [hins] at h; cases h
    | ok mm =>
      rw [hins] at h
      obtain ⟨hshape, hok⟩ := insertOutputs_ok node m c.outputs mm hins
      have hrest := ih (node + 1) mm h
      intro o ho
      rw [List.flatMap_cons, List.mem_append] at ho
      rcases ho with ho | ho
      · have h1 := hok o ho
        have honr : o ∉ rest.flatMap (fun c => c.outputs) := by
          intro hmem
          have := (hrest o hmem).1
          rw [hshape, afind_append_none _ h1.1, afind_map_self c.outputs node ho] at this
          cases this
        rw [List.flatMap_cons, countS_append, countS_eq_zero_of_not_mem honr]
        exact ⟨h1.1, by omega⟩
      · have h2 := hrest o ho
        have hoc : o ∉ c.outputs := by
          intro hmem
          have := h2.1
          rw [hshape, afind_append_none _ (hok o hmem).1,
            afind_map_self c.outputs node hmem] at this
          cases this
        have hfm : afind m o = none := by
          have := h2.1
          rw [hshape] at this
          exact afind_append_none_left this
        rw [List.flatMap_cons, countS_append, countS_eq_zero_of_not_mem hoc]
        exact ⟨hfm, by omega⟩

theorem buildOutputsMapAux_error (node : Nat) (m : List (String × Nat))
    (cmds : List BuildCommand) (e : String)
    (h : buildOutputsMapAux node m cmds = Except.error e) :
    ∃ o ∈ cmds.flatMap (fun c => c.outputs), e = dupOutputMsg o ∧
      (afind m o ≠ none ∨ 2 ≤ countS (cmds.flatMap (fun c => c.outputs)) o) := by
  induction cmds generalizing node m with
  | nil => simp only [buildOutputsMapAux] at h; cases h
  | cons c rest ih =>
    simp only [buildOutputsMapAux] at h
    cases hins : insertOutputs node m c.outputs with
    | error e2 =>
      rw [hins] at h
      cases h
      obtain ⟨o, ho, he, hcase⟩ := insertOutputs_error node m c.outputs e hins
      refine ⟨o, by rw [List.flatMap_cons, List.mem_append]; exact Or.inl ho, he, ?_⟩
      rcases hcase with hne | hc
      · exact Or.inl hne
      · refine Or.inr ?_
        rw [List.flatMap_cons, countS_append]
        omega
    | ok mm =>
      rw [hins] at h
      obtain ⟨hshape, hok⟩ := insertOutputs_ok node m c.outputs mm hins
      obtain ⟨o, ho, he, hcase⟩ := ih (node + 1) mm h
      refine ⟨o, by rw [List.flatMap_cons, List.mem_append]; exact Or.inr ho, he, ?_⟩
      rcases hcase with hne | hc
      · cases hmo : afind m o with
        | some v => exact Or.inl (by simp [hmo])
        | none =>
          rw [hshape, afind_append_none _ hmo] at hne
          by_cases hoc : o ∈ c.outputs
          · refine Or.inr ?_
            rw [List.flatMap_cons, countS_append]
            have h1 := countS_pos_of_mem hoc
            have h2 := countS_pos_of_mem ho
            omega
          · rw [afind_map_none c.outputs node hoc] at hne
            exact absurd rfl hne
      · refine Or.inr ?_
        rw [List.flatMap_cons, countS_append]
        omega

theorem buildOutputsMapAux_exists_ok (node : Nat) (m : List (String × Nat))
    (cmds : List BuildCommand)
    (h : ∀ o ∈ cmds.flatMap (fun c => c.outputs),
      afind m o = none ∧ countS (cmds.flatMap (fun c => c.outputs)) o ≤ 1) :
    ∃ m2, buildOutputsMapAux node m cmds = Except.ok m2 := by
  induction cmds generalizing node m with
  | nil => exact ⟨m, rfl⟩
  | cons c rest ih =>
    have hhead : ∀ o ∈ c.outputs, afind m o = none ∧ countS c.outputs o ≤ 1 := by
      intro o ho
      have := h o (by rw [List.flatMap_cons, List.mem_append]; exact Or.inl ho)
      rw [List.flatMap_cons, countS_append] at this
      exact ⟨this.1, by omega⟩
    obtain ⟨mm, hins⟩ := insertOutputs_exists_ok node m c.outputs hhead
    obtain ⟨hshape, hok⟩ := insertOutputs_ok node m c.outputs mm hins
    have hrest : ∀ o ∈ rest.flatMap (fun c => c.outputs),
        afind mm o = none ∧ countS (rest.flatMap (fun c => c.outputs)) o ≤ 1 := by
      intro o ho
      have hall := h o (by rw [List.flatMap_cons, List.mem_append]; exact Or.inr ho)
      rw [List.flatMap_cons, countS_append] at hall
      have hoc : o ∉ c.outputs := by
        intro hmem
        have h1 := countS_pos_of_mem hmem
        have h2 := countS_pos_of_mem ho
        omega
      refine ⟨?_, by omega⟩
      rw [hshape, afind_append_none _ hall.1, afind_map_none c.outputs node hoc]
    obtain ⟨m2, haux⟩ := ih (node + 1) mm hrest
    exact ⟨m2, by simp only [buildOutputsMapAux, hins]; exact haux⟩

theorem buildOutputsMapAux_lookup (node : Nat) (m : List (String × Nat))
    (cmds : List BuildCommand) (m2 : List (String × Nat))
    (h : buildOutputsMapAux node m cmds = Except.ok m2) :
    ∀ i c, cmds.get? i = some c → ∀ o ∈ c.outputs, afind m2 o = some (node + i) := by
  induction cmds generalizing node m with
  | nil => intro i c hc; cases i <;> cases hc
  | cons c0 rest ih =>
    simp only [buildOutputsMapAux] at h
    cases hins : insertOutputs node m c0.outputs with
    | error e => rw [hins] at h; cases h
    | ok mm =>
      rw [hins] at h
      obtain ⟨hshape, hok⟩ := insertOutputs_ok node m c0.outputs mm hins
      intro i c hc
      cases i with
      | zero =>
        cases hc
        intro o ho
        have hmm : afind mm o = some node := by
          rw [hshape, afind_append_none _ (hok o ho).1, afind_map_self c0.outputs node ho]
        obtain ⟨ext, hext⟩ := buildOutputsMapAux_ext (node + 1) mm rest m2 h
        rw [hext, afind_append_some ext hmm, Nat.add_zero]
      | succ j =>
        intro o ho
        have := ih (node + 1) mm h j c hc o ho
        rw [this]
        congr 1
        omega

theorem mkDag_spec (info : BuildInfo) (gens : List (String × Nat)) :
    mkDag info gens = Except.error "Build graph is cyclic" ∨
    ∃ bd, mkDag info gens = Except.ok bd ∧ bd.output_file_generators = gens := by
  by_cases h : is_cyclic_directed (info.commands.length + info.tests.length)
      (dagEdges info gens) = true
  · exact Or.inl (by rw [mkDag, if_pos h])
  · refine Or.inr ⟨_, by rw [mkDag, if_neg h], rfl⟩

/-- C8, corrected: assuming path validation passes, graph construction
fails with the duplicate-output message exactly when some output path is
declared more than once across all output declarations (two commands
sharing an output, or one command listing it twice); when every output
is declared at most once, that error cannot occur, and whenever
construction succeeds the output-to-producer index maps each declared
output to the node of the command that declares it. -/
theorem c8_duplicate_output_characterisation (info : BuildInfo)
    (hval : ensure_absolute_normalised_paths info = Except.ok ()) :
    ((¬ ∀ o ∈ declaredOutputs info, countS (declaredOutputs info) o ≤ 1) →
      ∃ o, 2 ≤ countS (declaredOutputs info) o ∧
        BuildDag.new info = Except.error (dupOutputMsg o)) ∧
    ((∀ o ∈ declaredOutputs info, countS (declaredOutputs info) o ≤ 1) →
      BuildDag.new info = Except.error "Build graph is cyclic" ∨
      ∃ bd, BuildDag.new info = Except.ok bd ∧
        ∀ i c, info.commands.get? i = some c →
          ∀ o ∈ c.outputs, afind bd.output_file_generators o = some i) := by
  constructor
  · intro hdup
    cases hmap : buildOutputsMap info.commands with
    | ok gens =>
      exfalso
      apply hdup
      intro o ho
      exact (buildOutputsMapAux_ok_count 0 [] info.commands gens hmap o ho).2
    | error e =>
      obtain ⟨o, ho, he, hcase⟩ :=
        buildOutputsMapAux_error 0 [] info.commands e hmap
      refine ⟨o, ?_, ?_⟩
      · rcases hcase with hne | hc
        · exact absurd rfl hne
        · exact hc
      · simp only [BuildDag.new, hval, hmap]
        rw [he]
  · intro hnodup
    have hex : ∀ o ∈ info.commands.flatMap (fun c => c.outputs),
        afind ([] : List (String × Nat)) o = none ∧
        countS (info.commands.flatMap (fun c => c.outputs)) o ≤ 1 :=
      fun o ho => ⟨rfl, hnodup o ho⟩
    obtain ⟨gens, hmap⟩ := buildOutputsMapAux_exists_ok 0 [] info.commands hex
    have hmap2 : buildOutputsMap info.commands = Except.ok gens := hmap
    rcases mkDag_spec info gens with hmk | ⟨bd, hmk, hbd⟩
    · exact Or.inl (by simp only [BuildDag.new, hval, hmap2, hmk])
    · refine Or.inr ⟨bd, by simp only [BuildDag.new, hval, hmap2, hmk], ?_⟩
      intro i c hc o ho
      rw [hbd]
      have := buildOutputsMapAux_lookup 0 [] info.commands gens hmap i c hc o ho
      rw [Nat.zero_add] at this
      exact this

/-- A valid one-command description with a single declared output. -/
def info8w : BuildInfo :=
  { commands := [ { command := ["c"], inputs := [], outputs := ["/x/o"], working_dir := "/x", env := [] } ]
    tests := []
    sandboxed_dirs := [] }

/-- Witness for C8 at `info8w`, which passes path validation. -/
theorem c8_duplicate_output_characterisation_witness :
    ensure_absolute_normalised_paths info8w = Except.ok () ∧
    (((¬ ∀ o ∈ declaredOutputs info8w, countS (declaredOutputs info8w) o ≤ 1) →
      ∃ o, 2 ≤ countS (declaredOutputs info8w) o ∧
        BuildDag.new info8w = Except.error (dupOutputMsg o)) ∧
    ((∀ o ∈ declaredOutputs info8w, countS (declaredOutputs info8w) o ≤ 1) →
      BuildDag.new info8w = Except.error "Build graph is cyclic" ∨
      ∃ bd, BuildDag.new info8w = Except.ok bd ∧
        ∀ i c, info8w.commands.get? i = some c →
          ∀ o ∈ c.outputs, afind bd.output_file_generators o = some i)) :=
  ⟨rfl, c8_duplicate_output_characterisation info8w rfl⟩

/-! ## C9: test exit statuses never influence scheduling or success -/

/-- The scheduler-visible part of the state: everything except the log of
failed tests. -/
def schedCore (st : SchedState) :
    List Nat × List (Nat × Nat) × List Nat × Option String :=
  (st.ready, st.remaining, st.executed, st.aborted)

/-- The same oracle with every test that would have exited made to exit
successfully (spawn failures are kept). -/
def envAllTestsPass (env : ExecEnv) : ExecEnv :=
  { env with testOutcome := fun j => (env.testOutcome j).map (fun _ => true) }

theorem execNode_agree (info : BuildInfo) (bd : BuildDag) (env : ExecEnv) (m : Nat) :
    (∃ b b2, execNode info bd env m = Except.ok b ∧
      execNode info bd (envAllTestsPass env) m = Except.ok b2) ∨
    (∃ e, execNode info bd env m = Except.error e ∧
      execNode info bd (envAllTestsPass env) m = Except.error e) := by
  cases hw : bd.nodes.get? m with
  | none =>
    refine Or.inr ⟨"Internal logic error 2", ?_, ?_⟩ <;> simp only [execNode, hw]
  | some w =>
    cases w with
    | BuildCommandIndex i =>
      cases hc : info.commands.get? i with
      | none =>
        refine Or.inr ⟨"index out of bounds", ?_, ?_⟩ <;> simp only [execNode, hw, hc]
      | some c =>
        have hsame : run_command_if_necessary (envAllTestsPass env).fs
            ((envAllTestsPass env).buildOutcome i) c =
            run_command_if_necessary env.fs (env.buildOutcome i) c := rfl
        cases hr : run_command_if_necessary env.fs (env.buildOutcome i) c with
        | error e =>
          refine Or.inr ⟨e, ?_, ?_⟩ <;> simp only [execNode, hw, hc, hsame, hr]
        | ok b =>
          refine Or.inl ⟨false, false, ?_, ?_⟩ <;> simp only [execNode, hw, hc, hsame, hr]
    | TestCommandIndex j =>
      cases hn : bd.test_names.get? j with
      | none =>
        refine Or.inr ⟨"index out of bounds", ?_, ?_⟩ <;> simp only [execNode, hw, hn]
      | some name =>
        cases ht : afind info.tests name with
        | none =>
          refine Or.inr ⟨"index out of bounds", ?_, ?_⟩ <;> simp only [execNode, hw, hn, ht]
        | some c =>
          by_cases hemp : c.command = []
          · refine Or.inr ⟨"Command is empty", ?_, ?_⟩ <;>
              simp only [execNode, hw, hn, ht, run_test, if_pos hemp]
          · cases hout : env.testOutcome j with
            | none =>
              have hout2 : (envAllTestsPass env).testOutcome j = none := by
                show (env.testOutcome j).map (fun _ => true) = none
                rw [hout]
                rfl
              refine Or.inr ⟨"spawn failed", ?_, ?_⟩
              · simp only [execNode, hw, hn, ht, run_test, if_neg hemp, hout]
              · simp only [execNode, hw, hn, ht, run_test, if_neg hemp, hout2]
            | some ok =>
              have hout2 : (envAllTestsPass env).testOutcome j = some true := by
                show (env.testOutcome j).map (fun _ => true) = some true
                rw [hout]
                rfl
              refine Or.inl ⟨!ok, !true, ?_, ?_⟩
              · simp only [execNode, hw, hn, ht, run_test, if_neg hemp, hout]
              · simp only [execNode, hw, hn, ht, run_test, if_neg hemp, hout2]

theorem runBuild_core_agree (info : BuildInfo) (bd : BuildDag) (env : ExecEnv)
    (selected : List Nat) :
    ∀ fuel st st2, schedCore st = schedCore st2 →
      schedCore (runBuild info bd env selected fuel st) =
        schedCore (runBuild info bd (envAllTestsPass env) selected fuel st2) := by
  intro fuel
  induction fuel with
  | zero =>
    intro st st2 h
    simpa only [runBuild] using h
  | succ f ih =>
    intro st st2 h
    obtain ⟨h1, h2, h3, h4⟩ : st.ready = st2.ready ∧ st.remaining = st2.remaining ∧
        st.executed = st2.executed ∧ st.aborted = st2.aborted := by
      refine ⟨congrArg (fun p => p.1) h, congrArg (fun p => p.2.1) h,
        congrArg (fun p => p.2.2.1) h, congrArg (fun p => p.2.2.2) h⟩
    simp only [runBuild]
    rw [← h1]
    cases hpop : popMax st.ready with
    | none => simp only [hpop]; exact h
    | some pr =>
      obtain ⟨m, rest⟩ := pr
      simp only [hpop]
      rcases execNode_agree info bd env m with ⟨b, b2, hb, hb2⟩ | ⟨e, he, he2⟩
      · simp only [hb, hb2]
        rw [← h2]
        cases hch : processChildren selected (childTargets bd.edges m) st.remaining rest with
        | none => simp only [hch, schedCore, h2, h3, h4]
        | some r =>
          simp only [hch]
          apply ih
          simp only [schedCore, h2, h3, h4]
      · simp only [he, he2]
        simp only [schedCore, h2, h3, h4]

/-- C9: a test command's exit status never influences the run: forcing
every spawned test to exit successfully leaves the dispatch order, the
ready heap, the remaining-dependencies map and the aborted flag of the
schedule unchanged, so a failing test aborts nothing and prevents no
other selected node from executing, and the run's outcome is the same as
if the test had passed. -/
theorem c9_test_failure_does_not_abort (info : BuildInfo) (bd : BuildDag)
    (env : ExecEnv) (selected : List Nat) (fuel : Nat) :
    (runSchedule info bd env selected fuel).executed =
      (runSchedule info bd (envAllTestsPass env) selected fuel).executed ∧
    (runSchedule info bd env selected fuel).aborted =
      (runSchedule info bd (envAllTestsPass env) selected fuel).aborted ∧
    (runSchedule info bd env selected fuel).remaining =
      (runSchedule info bd (envAllTestsPass env) selected fuel).remaining := by
  have h := runBuild_core_agree info bd env selected fuel
    { ready := (initSched bd.edges selected).1, remaining := (initSched bd.edges selected).2,
      executed := [], failedTests := [], aborted := none }
    { ready := (initSched bd.edges selected).1, remaining := (initSched bd.edges selected).2,
      executed := [], failedTests := [], aborted := none } rfl
  have e2 := congrArg (fun p => p.2.1) h
  have e3 := congrArg (fun p => p.2.2.1) h
  have e4 := congrArg (fun p => p.2.2.2) h
  exact ⟨e3, e4, e2⟩

/-! ## C7: helper lemmas about the scheduler's data -/

/-- Occurrences of a node in a list. -/
def countN : List Nat → Nat → Nat
  | [], _ => 0
  | x :: rest, b => (if x = b then 1 else 0) + countN rest b

theorem countN_cons_self (a : Nat) (l : List Nat) :
    countN (a :: l) a = 1 + countN l a := by
  show (if a = a then 1 else 0) + countN l a = 1 + countN l a
  rw [if_pos rfl]

theorem countN_cons_ne {a b : Nat} (h : a ≠ b) (l : List Nat) :
    countN (a :: l) b = countN l b := by
  show (if a = b then 1 else 0) + countN l b = countN l b
  rw [if_neg h]
  omega

theorem countN_pos_of_mem {l : List Nat} {b : Nat} (h : b ∈ l) : 1 ≤ countN l b := by
  induction l with
  | nil => cases h
  | cons x rest ih =>
    rcases List.mem_cons.mp h with h2 | h2
    · subst h2; rw [countN_cons_self]; omega
    · by_cases hx : x = b
      · subst hx; rw [countN_cons_self]; omega
      · rw [countN_cons_ne hx]; exact ih h2

theorem not_mem_of_countN_zero {l : List Nat} {b : Nat} (h : countN l b = 0) : b ∉ l := by
  intro hmem
  have := countN_pos_of_mem hmem
  omega

/-- In-edges into `b` whose source has not executed yet. -/
def countUnexec (es : List (Nat × Nat × Nat)) (ex : List Nat) (b : Nat) : Nat :=
  match es with
  | [] => 0
  | e :: rest => (if e.2.1 = b ∧ e.1 ∉ ex then 1 else 0) + countUnexec rest ex b

theorem countUnexec_nil_eq_indeg (es : List (Nat × Nat × Nat)) (b : Nat) :
    countUnexec es [] b = indeg es b := by
  induction es with
  | nil => rfl
  | cons e rest ih =>
    by_cases he : e.2.1 = b
    · have : indeg (e :: rest) b = indeg rest b + 1 := by
        simp only [indeg, List.filter_cons, if_pos (by exact decide_eq_true he)]
        simp
      rw [this]
      show (if e.2.1 = b ∧ e.1 ∉ ([] : List Nat) then 1 else 0) + countUnexec rest [] b
        = indeg rest b + 1
      rw [if_pos ⟨he, by simp⟩, ih]
      omega
    · have : indeg (e :: rest) b = indeg rest b := by
        simp only [indeg, List.filter_cons]
        rw [if_neg (by simpa using he)]
      rw [this]
      show (if e.2.1 = b ∧ e.1 ∉ ([] : List Nat) then 1 else 0) + countUnexec rest [] b
        = indeg rest b
      rw [if_neg (fun hc => he hc.1), ih]
      omega

theorem indeg_zero_iff (es : List (Nat × Nat × Nat)) (b : Nat) :
    indeg es b = 0 ↔ ∀ a w, (a, b, w) ∉ es := by
  induction es with
  | nil => simp [indeg]
  | cons e rest ih =>
    by_cases he : e.2.1 = b
    · have hcount : indeg (e :: rest) b = indeg rest b + 1 := by
        simp only [indeg, List.filter_cons, if_pos (by exact decide_eq_true he)]
        simp
      rw [hcount]
      constructor
      · intro h; omega
      · intro h
        exfalso
        exact h e.1 e.2.2 (by
          have : e = (e.1, b, e.2.2) := by
            rw [← he]
          rw [← this]
          exact List.mem_cons_self e rest)
    · have hcount : indeg (e :: rest) b = indeg rest b := by
        simp only [indeg, List.filter_cons]
        rw [if_neg (by simpa using he)]
      rw [hcount, ih]
      constructor
      · intro h a w hmem
        rcases List.mem_cons.mp hmem with h2 | h2
        · exact he (by rw [← h2])
        · exact h a w h2
      · intro h a w hmem
        exact h a w (List.mem_cons_of_mem e hmem)

theorem countUnexec_zero_iff (es : List (Nat × Nat × Nat)) (ex : List Nat) (b : Nat) :
    countUnexec es ex b = 0 ↔ ∀ a w, (a, b, w) ∈ es → a ∈ ex := by
  induction es with
  | nil => simp [countUnexec]
  | cons e rest ih =>
    show (if e.2.1 = b ∧ e.1 ∉ ex then 1 else 0) + countUnexec rest ex b = 0 ↔ _
    by_cases hc : e.2.1 = b ∧ e.1 ∉ ex
    · rw [if_pos hc]
      constructor
      · intro h; omega
      · intro h
        exfalso
        apply hc.2
        exact h e.1 e.2.2 (by
          have : e = (e.1, b, e.2.2) := by rw [← hc.1]
          rw [← this]
          exact List.mem_cons_self e rest)
    · rw [if_neg hc, Nat.zero_add, ih]
      constructor
      · intro h a w hmem
        rcases List.mem_cons.mp hmem with h2 | h2
        · by_cases hb2 : e.2.1 = b
          · by_cases hex : e.1 ∈ ex
            · have : a = e.1 := by rw [← h2]
              rw [this]; exact hex
            · exact absurd ⟨hb2, hex⟩ hc
          · exact absurd (by rw [← h2]) hb2
        · exact h a w h2
      · intro h a w hmem
        exact h a w (List.mem_cons_of_mem e hmem)

theorem countUnexec_snoc (es : List (Nat × Nat × Nat)) (ex : List Nat) (m : Nat)
    (hm : m ∉ ex) (b : Nat) :
    countUnexec es ex b = countUnexec es (ex ++ [m]) b + countN (childTargets es m) b := by
  induction es with
  | nil => rfl
  | cons e rest ih =>
    have hmem : (e.1 ∈ ex ++ [m]) ↔ (e.1 ∈ ex ∨ e.1 = m) := by
      rw [List.mem_append, List.mem_singleton]
    by_cases hsrc : e.1 = m
    · have h1 : (if e.2.1 = b ∧ e.1 ∉ ex then 1 else 0) = (if e.2.1 = b then 1 else 0) := by
        by_cases hb2 : e.2.1 = b
        · rw [if_pos ⟨hb2, hsrc ▸ hm⟩, if_pos hb2]
        · rw [if_neg (fun hx => hb2 hx.1), if_neg hb2]
      have h2 : (if e.2.1 = b ∧ e.1 ∉ ex ++ [m] then 1 else 0) = 0 := by
        rw [if_neg (fun hx => hx.2 (hmem.mpr (Or.inr hsrc)))]
      have h3 : childTargets (e :: rest) m = e.2.1 :: childTargets rest m := by
        simp only [childTargets, List.filterMap_cons, if_pos hsrc]
      show (if e.2.1 = b ∧ e.1 ∉ ex then 1 else 0) + countUnexec rest ex b = _
      rw [h1, ih, h3]
      show _ = (if e.2.1 = b ∧ e.1 ∉ ex ++ [m] then 1 else 0) + countUnexec rest (ex ++ [m]) b
        + countN (e.2.1 :: childTargets rest m) b
      rw [h2]
      by_cases hb2 : e.2.1 = b
      · rw [if_pos hb2, hb2, countN_cons_self]
        omega
      · rw [if_neg hb2, countN_cons_ne hb2]
        omega
    · have h3 : childTargets (e :: rest) m = childTargets rest m := by
        simp only [childTargets, List.filterMap_cons, if_neg hsrc]
      have h1 : (if e.2.1 = b ∧ e.1 ∉ ex ++ [m] then 1 else 0)
          = (if e.2.1 = b ∧ e.1 ∉ ex then 1 else 0) := by
        by_cases hb2 : e.2.1 = b ∧ e.1 ∉ ex
        · rw [if_pos hb2, if_pos ⟨hb2.1, fun hx => (hmem.mp hx).elim hb2.2 hsrc⟩]
        · rw [if_neg hb2, if_neg (fun hx => hb2 ⟨hx.1, fun hin => hx.2 (hmem.mpr (Or.inl hin))⟩)]
      show (if e.2.1 = b ∧ e.1 ∉ ex then 1 else 0) + countUnexec rest ex b = _
      rw [ih, h3]
      show _ = (if e.2.1 = b ∧ e.1 ∉ ex ++ [m] then 1 else 0) + countUnexec rest (ex ++ [m]) b
        + countN (childTargets rest m) b
      rw [h1]
      omega

/-- Every dispatch of a consumer is preceded by the dispatch of each of
its producers. -/
def OrderOK (es : List (Nat × Nat × Nat)) (l : List Nat) : Prop :=
  ∀ a b w, (a, b, w) ∈ es → ∀ l1 l2, l = l1 ++ b :: l2 → a ∈ l1

theorem OrderOK_nil (es : List (Nat × Nat × Nat)) : OrderOK es [] := by
  intro a b w _ l1 l2 h
  exact absurd h.symm (List.append_ne_nil_of_right_ne_nil l1 (List.cons_ne_nil b l2))

theorem OrderOK_snoc (es : List (Nat × Nat × Nat)) (l : List Nat) (m : Nat)
    (h2 : OrderOK es l) (h1 : ∀ a w, (a, m, w) ∈ es → a ∈ l) :
    OrderOK es (l ++ [m]) := by
  intro a b w hedge l1 l2 hsplit
  rcases List.eq_nil_or_concat l2 with hl2 | ⟨l2f, x, hl2⟩
  · subst hl2
    have hlen : l.length = l1.length := by
      have := congrArg List.length hsplit
      simp at this
      omega
    obtain ⟨hl, hm⟩ := List.append_inj hsplit hlen
    cases hm
    rw [← hl]
    exact h1 a w hedge
  · subst hl2
    have hre : l ++ [m] = (l1 ++ b :: l2f) ++ [x] := by
      rw [hsplit]
      simp
    have hlen : l.length = (l1 ++ b :: l2f).length := by
      have := congrArg List.length hre
      simp at this
      simp
      omega
    obtain ⟨hl, hm⟩ := List.append_inj hre hlen
    exact h2 a b w hedge l1 l2f hl

/-! Association map operations used by the dependants loop. -/

def keysOf (m : List (Nat × Nat)) : List Nat := m.map Prod.fst

theorem lookupN_mem_keys {m : List (Nat × Nat)} {b k : Nat}
    (h : lookupN m b = some k) : b ∈ keysOf m := by
  induction m with
  | nil => cases h
  | cons p rest ih =>
    by_cases hp : p.1 = b
    · exact hp ▸ List.mem_cons_self p.1 (keysOf rest)
    · show b ∈ p.1 :: keysOf rest
      refine List.mem_cons_of_mem p.1 (ih ?_)
      have : lookupN (p :: rest) b = lookupN rest b := by
        show (if p.1 = b then some p.2 else lookupN rest b) = lookupN rest b
        rw [if_neg hp]
      rw [← this]
      exact h

theorem lookupN_none_of_not_mem {m : List (Nat × Nat)} {b : Nat}
    (h : b ∉ keysOf m) : lookupN m b = none := by
  induction m with
  | nil => rfl
  | cons p rest ih =>
    have hp : p.1 ≠ b := fun he => h (he ▸ List.mem_cons_self p.1 (keysOf rest))
    show (if p.1 = b then some p.2 else lookupN rest b) = none
    rw [if_neg hp]
    exact ih (fun hm => h (List.mem_cons_of_mem p.1 hm))

theorem mem_keys_removeKey {m : List (Nat × Nat)} {b b2 : Nat} :
    b2 ∈ keysOf (removeKey m b) ↔ b2 ∈ keysOf m ∧ b2 ≠ b := by
  induction m with
  | nil => simp [removeKey, keysOf]
  | cons p rest ih =>
    by_cases hp : p.1 = b
    · show b2 ∈ keysOf (if p.1 = b then removeKey rest b else (p.1, p.2) :: removeKey rest b) ↔ _
      rw [if_pos hp, ih]
      constructor
      · rintro ⟨hm, hne⟩
        exact ⟨List.mem_cons_of_mem p.1 hm, hne⟩
      · rintro ⟨hm, hne⟩
        rcases List.mem_cons.mp hm with h2 | h2
        · exact absurd (h2.trans hp) hne
        · exact ⟨h2, hne⟩
    · show b2 ∈ keysOf (if p.1 = b then removeKey rest b else (p.1, p.2) :: removeKey rest b) ↔ _
      rw [if_neg hp]
      show b2 ∈ p.1 :: keysOf (removeKey rest b) ↔ _
      rw [List.mem_cons, ih]
      constructor
      · rintro (h2 | ⟨hm, hne⟩)
        · exact ⟨h2 ▸ List.mem_cons_self p.1 (keysOf rest), h2 ▸ hp⟩
        · exact ⟨List.mem_cons_of_mem p.1 hm, hne⟩
      · rintro ⟨hm, hne⟩
        rcases List.mem_cons.mp hm with h2 | h2
        · exact Or.inl h2
        · exact Or.inr ⟨h2, hne⟩

theorem lookupN_removeKey_ne {m : List (Nat × Nat)} {b b2 : Nat} (h : b2 ≠ b) :
    lookupN (removeKey m b) b2 = lookupN m b2 := by
  induction m with
  | nil => rfl
  | cons p rest ih =>
    by_cases hp : p.1 = b
    · show lookupN (if p.1 = b then removeKey rest b else (p.1, p.2) :: removeKey rest b) b2 = _
      rw [if_pos hp, ih]
      show _ = (if p.1 = b2 then some p.2 else lookupN rest b2)
      rw [if_neg (fun he => h (he.symm.trans hp))]
    · show lookupN (if p.1 = b then removeKey rest b else (p.1, p.2) :: removeKey rest b) b2 = _
      rw [if_neg hp]
      show (if p.1 = b2 then some p.2 else lookupN (removeKey rest b) b2)
        = (if p.1 = b2 then some p.2 else lookupN rest b2)
      by_cases hp2 : p.1 = b2
      · rw [if_pos hp2, if_pos hp2]
      · rw [if_neg hp2, if_neg hp2, ih]

theorem keysOf_nodup_removeKey {m : List (Nat × Nat)} {b : Nat}
    (h : (keysOf m).Nodup) : (keysOf (removeKey m b)).Nodup := by
  induction m with
  | nil => exact h
  | cons p rest ih =>
    have h2 : (keysOf rest).Nodup := (List.nodup_cons.mp h).2
    have h1 : p.1 ∉ keysOf rest := (List.nodup_cons.mp h).1
    by_cases hp : p.1 = b
    · show (keysOf (if p.1 = b then removeKey rest b else (p.1, p.2) :: removeKey rest b)).Nodup
      rw [if_pos hp]
      exact ih h2
    · show (keysOf (if p.1 = b then removeKey rest b else (p.1, p.2) :: removeKey rest b)).Nodup
      rw [if_neg hp]
      show (p.1 :: keysOf (removeKey rest b)).Nodup
      rw [List.nodup_cons]
      exact ⟨fun hm => h1 (mem_keys_removeKey.mp hm).1, ih h2⟩

theorem keysOf_setKey (m : List (Nat × Nat)) (b v : Nat) :
    keysOf (setKey m b v) = keysOf m := by
  induction m with
  | nil => rfl
  | cons p rest ih =>
    by_cases hp : p.1 = b
    · show keysOf (if p.1 = b then (p.1, v) :: setKey rest b v else (p.1, p.2) :: setKey rest b v) = _
      rw [if_pos hp]
      show p.1 :: keysOf (setKey rest b v) = p.1 :: keysOf rest
      rw [ih]
    · show keysOf (if p.1 = b then (p.1, v) :: setKey rest b v else (p.1, p.2) :: setKey rest b v) = _
      rw [if_neg hp]
      show p.1 :: keysOf (setKey rest b v) = p.1 :: keysOf rest
      rw [ih]

theorem lookupN_setKey_self {m : List (Nat × Nat)} {b k : Nat}
    (h : lookupN m b = some k) (v : Nat) : lookupN (setKey m b v) b = some v := by
  induction m with
  | nil => cases h
  | cons p rest ih =>
    by_cases hp : p.1 = b
    · show lookupN (if p.1 = b then (p.1, v) :: setKey rest b v else _) b = some v
      rw [if_pos hp]
      show (if p.1 = b then some v else lookupN (setKey rest b v) b) = some v
      rw [if_pos hp]
    · show lookupN (if p.1 = b then _ else (p.1, p.2) :: setKey rest b v) b = some v
      rw [if_neg hp]
      show (if p.1 = b then some p.2 else lookupN (setKey rest b v) b) = some v
      rw [if_neg hp]
      apply ih
      have : lookupN (p :: rest) b = lookupN rest b := by
        show (if p.1 = b then some p.2 else lookupN rest b) = lookupN rest b
        rw [if_neg hp]
      rw [← this]
      exact h

theorem lookupN_setKey_ne {m : List (Nat × Nat)} {b b2 : Nat} (h : b2 ≠ b) (v : Nat) :
    lookupN (setKey m b v) b2 = lookupN m b2 := by
  induction m with
  | nil => rfl
  | cons p rest ih =>
    by_cases hp : p.1 = b
    · show lookupN (if p.1 = b then (p.1, v) :: setKey rest b v else _) b2 = _
      rw [if_pos hp]
      show (if p.1 = b2 then some v else lookupN (setKey rest b v) b2)
        = (if p.1 = b2 then some p.2 else lookupN rest b2)
      rw [if_neg (fun he => h (he.symm.trans hp)), if_neg (fun he => h (he.symm.trans hp)), ih]
    · show lookupN (if p.1 = b then _ else (p.1, p.2) :: setKey rest b v) b2 = _
      rw [if_neg hp]
      show (if p.1 = b2 then some p.2 else lookupN (setKey rest b v) b2)
        = (if p.1 = b2 then some p.2 else lookupN rest b2)
      by_cases hp2 : p.1 = b2
      · rw [if_pos hp2, if_pos hp2]
      · rw [if_neg hp2, if_neg hp2, ih]

/-- Popping the max-heap removes exactly one occurrence of the returned
element. -/
theorem popMax_decomp : ∀ (l rest : List Nat) (m : Nat),
    popMax l = some (m, rest) → ∃ l1 l2, l = l1 ++ m :: l2 ∧ rest = l1 ++ l2 := by
  intro l
  induction l with
  | nil => intro rest m h; cases h
  | cons n r ih =>
    intro rest m h
    cases hr : popMax r with
    | none =>
      have hrnil : r = [] := by
        cases r with
        | nil => rfl
        | cons x xs =>
          exfalso
          simp only [popMax] at hr
          cases hx : popMax xs with
          | none => rw [hx] at hr; cases hr
          | some pr => rw [hx] at hr; by_cases hle : pr.1 ≤ x <;> simp [hle] at hr
      subst hrnil
      simp only [popMax] at h
      cases h
      exact ⟨[], [], rfl, rfl⟩
    | some pr =>
      obtain ⟨m2, rest2⟩ := pr
      simp only [popMax, hr] at h
      by_cases hle : m2 ≤ n
      · rw [if_pos hle] at h
        cases h
        exact ⟨[], r, rfl, rfl⟩
      · rw [if_neg hle] at h
        cases h
        obtain ⟨l1, l2, hl, hrest⟩ := ih rest2 m hr
        exact ⟨n :: l1, l2, by rw [hl, List.cons_append], by rw [hrest, List.cons_append]⟩

theorem processChildren_cons (selected : List Nat) (b : Nat) (rest : List Nat)
    (rem : List (Nat × Nat)) (rdy : List Nat) :
    processChildren selected (b :: rest) rem rdy =
      if b ∈ selected then
        match lookupN rem b with
        | none => none
        | some 0 => none
        | some 1 => processChildren selected rest (removeKey rem b) (rdy ++ [b])
        | some (k + 2) => processChildren selected rest (setKey rem b (k + 1)) rdy
      else processChildren selected rest rem rdy := rfl

/-- What the dependants loop guarantees: either it panics (none), or it
pushes exactly the keys whose producers have now all executed (`f b = 0`,
where `f` is the count of in-edges from unexecuted sources after the
step), removes them from the map, and keeps every other counter at or
above its remaining in-edge count. -/
theorem processChildren_spec (selected : List Nat) (f : Nat → Nat) :
    ∀ (outs : List Nat) (rem : List (Nat × Nat)) (rdy : List Nat),
      (keysOf rem).Nodup →
      (∀ b ∈ keysOf rem, b ∈ selected) →
      (∀ b k, lookupN rem b = some k → f b + countN outs b ≤ k) →
      processChildren selected outs rem rdy = none ∨
      ∃ rem2 pushed, processChildren selected outs rem rdy = some (rem2, rdy ++ pushed) ∧
        pushed.Nodup ∧
        (∀ b ∈ pushed, b ∈ keysOf rem ∧ f b = 0) ∧
        (∀ b ∈ keysOf rem2, b ∈ keysOf rem ∧ b ∉ pushed) ∧
        (∀ b k, lookupN rem2 b = some k → f b ≤ k) ∧
        (keysOf rem2).Nodup := by
  intro outs
  induction outs with
  | nil =>
    intro rem rdy hnd hsel hcount
    refine Or.inr ⟨rem, [], by rw [processChildren, List.append_nil], List.nodup_nil, ?_, ?_, ?_, hnd⟩
    · intro b hb; cases hb
    · intro b hb; exact ⟨hb, fun hc => absurd hc (List.not_mem_nil b)⟩
    · intro b k hk
      have := hcount b k hk
      simpa [countN] using this
  | cons b rest ih =>
    intro rem rdy hnd hsel hcount
    by_cases hbsel : b ∈ selected
    · rw [processChildren_cons, if_pos hbsel]
      cases hlk : lookupN rem b with
      | none => exact Or.inl rfl
      | some k =>
        match k, hlk with
        | 0, hlk => exact Or.inl rfl
        | 1, hlk =>
          have hc := hcount b 1 hlk
          have hb1 : countN (b :: rest) b = 1 + countN rest b := countN_cons_self b rest
          have hf0 : f b = 0 := by omega
          have hcr0 : countN rest b = 0 := by omega
          have hbmem : b ∈ keysOf rem := lookupN_mem_keys hlk
          have hnd2 : (keysOf (removeKey rem b)).Nodup := keysOf_nodup_removeKey hnd
          have hsel2 : ∀ b2 ∈ keysOf (removeKey rem b), b2 ∈ selected := by
            intro b2 hb2
            exact hsel b2 (mem_keys_removeKey.mp hb2).1
          have hcount2 : ∀ b2 k2, lookupN (removeKey rem b) b2 = some k2 →
              f b2 + countN rest b2 ≤ k2 := by
            intro b2 k2 hk2
            have hne : b2 ≠ b := by
              intro he
              subst he
              rw [lookupN_none_of_not_mem
                (fun hm => (mem_keys_removeKey.mp hm).2 rfl)] at hk2
              cases hk2
            rw [lookupN_removeKey_ne hne] at hk2
            have := hcount b2 k2 hk2
            rw [countN_cons_ne (fun he => hne he.symm)] at this
            exact this
          rcases ih (removeKey rem b) (rdy ++ [b]) hnd2 hsel2 hcount2 with hnone | hsome
          · exact Or.inl hnone
          · obtain ⟨rem2, pushed, hrun, hpnd, hpush, hkeys, hlook, hnd3⟩ := hsome
            refine Or.inr ⟨rem2, b :: pushed, ?_, ?_, ?_, ?_, hlook, hnd3⟩
            · show processChildren selected rest (removeKey rem b) (rdy ++ [b])
                = some (rem2, rdy ++ b :: pushed)
              rw [hrun, List.append_assoc]
              rfl
            · rw [List.nodup_cons]
              refine ⟨fun hm => ?_, hpnd⟩
              exact (mem_keys_removeKey.mp (hpush b hm).1).2 rfl
            · intro b2 hb2
              rcases List.mem_cons.mp hb2 with h2 | h2
              · subst h2
                exact ⟨hbmem, hf0⟩
              · have := hpush b2 h2
                exact ⟨(mem_keys_removeKey.mp this.1).1, this.2⟩
            · intro b2 hb2
              have := hkeys b2 hb2
              have hmk := mem_keys_removeKey.mp this.1
              refine ⟨hmk.1, fun hm => ?_⟩
              rcases List.mem_cons.mp hm with h2 | h2
              · exact hmk.2 h2
              · exact this.2 h2
        | (k + 2), hlk =>
          have hc := hcount b (k + 2) hlk
          have hnd2 : (keysOf (setKey rem b (k + 1))).Nodup := by
            rw [keysOf_setKey]; exact hnd
          have hsel2 : ∀ b2 ∈ keysOf (setKey rem b (k + 1)), b2 ∈ selected := by
            intro b2 hb2
            rw [keysOf_setKey] at hb2
            exact hsel b2 hb2
          have hcount2 : ∀ b2 k2, lookupN (setKey rem b (k + 1)) b2 = some k2 →
              f b2 + countN rest b2 ≤ k2 := by
            intro b2 k2 hk2
            by_cases hne : b2 = b
            · subst hne
              rw [lookupN_setKey_self hlk (k + 1)] at hk2
              cases hk2
              rw [countN_cons_self] at hc
              omega
            · rw [lookupN_setKey_ne hne (k + 1)] at hk2
              have := hcount b2 k2 hk2
              rw [countN_cons_ne (fun he => hne he.symm)] at this
              exact this
          rcases ih (setKey rem b (k + 1)) rdy hnd2 hsel2 hcount2 with hnone | hsome
          · exact Or.inl hnone
          · obtain ⟨rem2, pushed, hrun, hpnd, hpush, hkeys, hlook, hnd3⟩ := hsome
            refine Or.inr ⟨rem2, pushed, ?_, hpnd, ?_, ?_, hlook, hnd3⟩
            · show processChildren selected rest (setKey rem b (k + 1)) rdy
                = some (rem2, rdy ++ pushed)
              exact hrun
            · intro b2 hb2
              have h2 := hpush b2 hb2
              rw [keysOf_setKey] at h2
              exact h2
            · intro b2 hb2
              have h2 := hkeys b2 hb2
              rw [keysOf_setKey] at h2
              exact h2
    · rw [processChildren_cons, if_neg hbsel]
      have hbk : b ∉ keysOf rem := fun hm => hbsel (hsel b hm)
      have hcount2 : ∀ b2 k2, lookupN rem b2 = some k2 → f b2 + countN rest b2 ≤ k2 := by
        intro b2 k2 hk2
        have hne : b ≠ b2 := fun he => hbk (he ▸ lookupN_mem_keys hk2)
        have := hcount b2 k2 hk2
        rw [countN_cons_ne hne] at this
        exact this
      exact ih rem rdy hnd hsel hcount2

/-- The scheduler's loop invariant: the ready heap, the remaining map
keys and the executed list are disjoint and duplicate-free, every ready
node already has all its producers executed, the executed prefix is
dependency-ordered, and every counter is at least the number of in-edges
from unexecuted sources. -/
structure SchedInv (es : List (Nat × Nat × Nat)) (selected : List Nat)
    (st : SchedState) : Prop where
  readyNodup : st.ready.Nodup
  keysNodup : (keysOf st.remaining).Nodup
  readyExec : ∀ n ∈ st.ready, n ∉ st.executed
  readyKeys : ∀ n ∈ st.ready, n ∉ keysOf st.remaining
  keysExec : ∀ n ∈ keysOf st.remaining, n ∉ st.executed
  keysSel : ∀ n ∈ keysOf st.remaining, n ∈ selected
  producersDone : ∀ a b w, (a, b, w) ∈ es → b ∈ st.ready → a ∈ st.executed
  orderOK : OrderOK es st.executed
  counters : ∀ b k, lookupN st.remaining b = some k → countUnexec es st.executed b ≤ k

theorem initSched_cons (es : List (Nat × Nat × Nat)) (n : Nat) (rest : List Nat) :
    initSched es (n :: rest) =
      if indeg es n = 0 then (n :: (initSched es rest).1, (initSched es rest).2)
      else ((initSched es rest).1, (n, indeg es n) :: (initSched es rest).2) := rfl

theorem initSched_mem_ready (es : List (Nat × Nat × Nat)) (sel : List Nat) (n : Nat) :
    n ∈ (initSched es sel).1 ↔ n ∈ sel ∧ indeg es n = 0 := by
  induction sel with
  | nil => simp [initSched]
  | cons x rest ih =>
    rw [initSched_cons]
    by_cases hx : indeg es x = 0
    · rw [if_pos hx]
      show n ∈ x :: (initSched es rest).1 ↔ _
      rw [List.mem_cons, ih, List.mem_cons]
      constructor
      · rintro (h | ⟨h1, h2⟩)
        · exact ⟨Or.inl h, h ▸ hx⟩
        · exact ⟨Or.inr h1, h2⟩
      · rintro ⟨h1 | h1, h2⟩
        · exact Or.inl h1
        · exact Or.inr ⟨h1, h2⟩
    · rw [if_neg hx]
      show n ∈ (initSched es rest).1 ↔ _
      rw [ih, List.mem_cons]
      constructor
      · rintro ⟨h1, h2⟩
        exact ⟨Or.inr h1, h2⟩
      · rintro ⟨h1 | h1, h2⟩
        · exact absurd (h1 ▸ h2) hx
        · exact ⟨h1, h2⟩

theorem initSched_mem_keys (es : List (Nat × Nat × Nat)) (sel : List Nat) (n : Nat) :
    n ∈ keysOf (initSched es sel).2 ↔ n ∈ sel ∧ indeg es n ≠ 0 := by
  induction sel with
  | nil => simp [initSched, keysOf]
  | cons x rest ih =>
    rw [initSched_cons]
    by_cases hx : indeg es x = 0
    · rw [if_pos hx]
      show n ∈ keysOf (initSched es rest).2 ↔ _
      rw [ih, List.mem_cons]
      constructor
      · rintro ⟨h1, h2⟩
        exact ⟨Or.inr h1, h2⟩
      · rintro ⟨h1 | h1, h2⟩
        · exact absurd (h1 ▸ hx) h2
        · exact ⟨h1, h2⟩
    · rw [if_neg hx]
      show n ∈ x :: keysOf (initSched es rest).2 ↔ _
      rw [List.mem_cons, ih, List.mem_cons]
      constructor
      · rintro (h | ⟨h1, h2⟩)
        · exact ⟨Or.inl h, h ▸ hx⟩
        · exact ⟨Or.inr h1, h2⟩
      · rintro ⟨h1 | h1, h2⟩
        · exact Or.inl h1
        · exact Or.inr ⟨h1, h2⟩

theorem initSched_lookup (es : List (Nat × Nat × Nat)) (sel : List Nat) (b k : Nat)
    (h : lookupN (initSched es sel).2 b = some k) : k = indeg es b := by
  induction sel with
  | nil => cases h
  | cons x rest ih =>
    rw [initSched_cons] at h
    by_cases hx : indeg es x = 0
    · rw [if_pos hx] at h
      exact ih h
    · rw [if_neg hx] at h
      by_cases hxb : x = b
      · have : lookupN ((x, indeg es x) :: (initSched es rest).2) b = some (indeg es x) := by
          show (if x = b then some (indeg es x) else _) = _
          rw [if_pos hxb]
        rw [this] at h
        cases h
        rw [hxb]
      · have : lookupN ((x, indeg es x) :: (initSched es rest).2) b
            = lookupN (initSched es rest).2 b := by
          show (if x = b then some (indeg es x) else _) = _
          rw [if_neg hxb]
        rw [this] at h
        exact ih h

theorem initSched_ready_nodup (es : List (Nat × Nat × Nat)) (sel : List Nat)
    (h : sel.Nodup) : (initSched es sel).1.Nodup := by
  induction sel with
  | nil => exact List.nodup_nil
  | cons x rest ih =>
    obtain ⟨hx, hrest⟩ := List.nodup_cons.mp h
    rw [initSched_cons]
    by_cases hd : indeg es x = 0
    · rw [if_pos hd]
      show (x :: (initSched es rest).1).Nodup
      rw [List.nodup_cons]
      exact ⟨fun hm => hx ((initSched_mem_ready es rest x).mp hm).1, ih hrest⟩
    · rw [if_neg hd]
      exact ih hrest

theorem initSched_keys_nodup (es : List (Nat × Nat × Nat)) (sel : List Nat)
    (h : sel.Nodup) : (keysOf (initSched es sel).2).Nodup := by
  induction sel with
  | nil => exact List.nodup_nil
  | cons x rest ih =>
    obtain ⟨hx, hrest⟩ := List.nodup_cons.mp h
    rw [initSched_cons]
    by_cases hd : indeg es x = 0
    · rw [if_pos hd]
      exact ih hrest
    · rw [if_neg hd]
      show (x :: keysOf (initSched es rest).2).Nodup
      rw [List.nodup_cons]
      exact ⟨fun hm => hx ((initSched_mem_keys es rest x).mp hm).1, ih hrest⟩

/-- The invariant holds when the scheduler is seeded from a
duplicate-free selected set. -/
theorem initSched_inv (es : List (Nat × Nat × Nat)) (selected : List Nat)
    (h : selected.Nodup) :
    SchedInv es selected
      { ready := (initSched es selected).1, remaining := (initSched es selected).2,
        executed := [], failedTests := [], aborted := none } := by
  refine ⟨initSched_ready_nodup es selected h, initSched_keys_nodup es selected h,
    ?_, ?_, ?_, ?_, ?_, OrderOK_nil es, ?_⟩
  · intro n _ hm; cases hm
  · intro n hn hm
    have h1 := (initSched_mem_ready es selected n).mp hn
    have h2 := (initSched_mem_keys es selected n).mp hm
    exact h2.2 h1.2
  · intro n _ hm; cases hm
  · intro n hn
    exact ((initSched_mem_keys es selected n).mp hn).1
  · intro a b w hedge hb
    exfalso
    have h1 := (initSched_mem_ready es selected b).mp hb
    exact (indeg_zero_iff es b).mp h1.2 a w hedge
  · intro b k hk
    rw [countUnexec_nil_eq_indeg]
    rw [initSched_lookup es selected b k hk]

/-- The loop preserves the invariant and therefore every state it can
reach has a dependency-ordered dispatch list. -/
theorem runBuild_OrderOK (info : BuildInfo) (bd : BuildDag) (env : ExecEnv)
    (selected : List Nat) :
    ∀ fuel st, SchedInv bd.edges selected st →
      OrderOK bd.edges (runBuild info bd env selected fuel st).executed := by
  intro fuel
  induction fuel with
  | zero =>
    intro st hinv
    simpa only [runBuild] using hinv.orderOK
  | succ f ih =>
    intro st hinv
    simp only [runBuild]
    cases hpop : popMax st.ready with
    | none => simpa only [hpop] using hinv.orderOK
    | some pr =>
      obtain ⟨m, rest⟩ := pr
      simp only [hpop]
      obtain ⟨l1, l2, hl, hrest⟩ := popMax_decomp st.ready rest m hpop
      have hmready : m ∈ st.ready := by
        rw [hl]
        exact List.mem_append_right l1 (List.mem_cons_self m l2)
      have hrest_sub : ∀ x ∈ rest, x ∈ st.ready := by
        intro x hx
        rw [hrest] at hx
        rw [hl]
        rcases List.mem_append.mp hx with h2 | h2
        · exact List.mem_append_left _ h2
        · exact List.mem_append_right _ (List.mem_cons_of_mem m h2)
      have hndmid : (m :: (l1 ++ l2)).Nodup := by
        rw [← List.nodup_middle, ← hl]
        exact hinv.readyNodup
      have hmnotrest : m ∉ rest := by
        rw [hrest]
        exact (List.nodup_cons.mp hndmid).1
      have hrestnd : rest.Nodup := by
        rw [hrest]
        exact (List.nodup_cons.mp hndmid).2
      have hmnotexec : m ∉ st.executed := hinv.readyExec m hmready
      have hmnotkeys : m ∉ keysOf st.remaining := hinv.readyKeys m hmready
      have hord2 : OrderOK bd.edges (st.executed ++ [m]) :=
        OrderOK_snoc bd.edges st.executed m hinv.orderOK
          (fun a w haw => hinv.producersDone a m w haw hmready)
      cases hex : execNode info bd env m with
      | error e =>
        simp only [hex]
        exact hord2
      | ok tf =>
        simp only [hex]
        rcases processChildren_spec selected (countUnexec bd.edges (st.executed ++ [m]))
            (childTargets bd.edges m) st.remaining rest hinv.keysNodup hinv.keysSel
            (fun b k hbk => by
              have h1 := hinv.counters b k hbk
              have h2 := countUnexec_snoc bd.edges st.executed m hmnotexec b
              omega) with hnone | hsome
        · simp only [hnone]
          exact hord2
        · obtain ⟨rem2, pushed, hrun, hpnd, hpush, hkeys, hlook, hnd3⟩ := hsome
          simp only [hrun]
          apply ih
          refine ⟨?_, hnd3, ?_, ?_, ?_, ?_, ?_, hord2, hlook⟩
          · show (rest ++ pushed).Nodup
            refine List.Nodup.append hrestnd hpnd ?_
            intro x hx hxp
            exact hinv.readyKeys x (hrest_sub x hx) (hpush x hxp).1
          · show ∀ n ∈ rest ++ pushed, n ∉ st.executed ++ [m]
            intro n hn hmem
            have hne : n ≠ m ∧ n ∉ st.executed := by
              rcases List.mem_append.mp hn with h2 | h2
              · exact ⟨fun he => hmnotrest (he ▸ h2), hinv.readyExec n (hrest_sub n h2)⟩
              · refine ⟨fun he => hmnotkeys (he ▸ (hpush n h2).1), ?_⟩
                exact hinv.keysExec n (hpush n h2).1
            rcases List.mem_append.mp hmem with h3 | h3
            · exact hne.2 h3
            · exact hne.1 (List.mem_singleton.mp h3)
          · show ∀ n ∈ rest ++ pushed, n ∉ keysOf rem2
            intro n hn hmem
            have hk := hkeys n hmem
            rcases List.mem_append.mp hn with h2 | h2
            · exact hinv.readyKeys n (hrest_sub n h2) hk.1
            · exact hk.2 h2
          · show ∀ n ∈ keysOf rem2, n ∉ st.executed ++ [m]
            intro n hn hmem
            have hk := hkeys n hn
            rcases List.mem_append.mp hmem with h3 | h3
            · exact hinv.keysExec n hk.1 h3
            · exact hmnotkeys ((List.mem_singleton.mp h3) ▸ hk.1)
          · show ∀ n ∈ keysOf rem2, n ∈ selected
            intro n hn
            exact hinv.keysSel n (hkeys n hn).1
          · show ∀ a b w, (a, b, w) ∈ bd.edges → b ∈ rest ++ pushed → a ∈ st.executed ++ [m]
            intro a b w hedge hb
            rcases List.mem_append.mp hb with h2 | h2
            · exact List.mem_append_left _ (hinv.producersDone a b w hedge (hrest_sub b h2))
            · exact (countUnexec_zero_iff bd.edges (st.executed ++ [m]) b).mp
                (hpush b h2).2 a w hedge

/-- C7: for any edge (A, B) with both endpoints in a duplicate-free
selected set, whenever B appears in the dispatch list of the serial
scheduling loop, A appears strictly before it — A was dispatched and, the
executor being serial, had completed before B was popped; B enters the
ready heap only once every in-edge producer has finished. -/
theorem c7_execution_order (info : BuildInfo) (bd : BuildDag) (env : ExecEnv)
    (selected : List Nat) (fuel : Nat) (hsel : selected.Nodup)
    (a b w : Nat) (hedge : (a, b, w) ∈ bd.edges)
    (ha : a ∈ selected) (hb : b ∈ selected) (l1 l2 : List Nat)
    (hsplit : (runSchedule info bd env selected fuel).executed = l1 ++ b :: l2) :
    a ∈ l1 := by
  have hinv := initSched_inv bd.edges selected hsel
  have hord := runBuild_OrderOK info bd env selected fuel _ hinv
  exact hord a b w hedge l1 l2 hsplit

/-- Two-command chain used as the C7 witness: A has no produced inputs, B
consumes A's output /w/b. -/
def infoW : BuildInfo :=
  { commands :=
      [ { command := ["a"], inputs := [], outputs := ["/w/b"], working_dir := "/w", env := [] }
      , { command := ["b"], inputs := ["/w/b"], outputs := ["/w/c"], working_dir := "/w", env := [] } ]
    tests := []
    sandboxed_dirs := ["/w"] }

/-- The graph `BuildDag::new` builds for `infoW`. -/
def bdW : BuildDag :=
  { nodes := [CommandIndex.BuildCommandIndex 0, CommandIndex.BuildCommandIndex 1]
    edges := [(0, 1, 0)]
    output_file_generators := [("/w/b", 0), ("/w/c", 1)]
    input_file_consumers := [("/w/b", [1])]
    test_names := []
    build_command_node_index := [0, 1]
    test_command_node_index := [] }

theorem c7_execution_order_witness :
    BuildDag.new infoW = Except.ok bdW ∧
    ([0, 1] : List Nat).Nodup ∧
    ((0 : Nat), (1 : Nat), (0 : Nat)) ∈ bdW.edges ∧
    (0 : Nat) ∈ ([0, 1] : List Nat) ∧ (1 : Nat) ∈ ([0, 1] : List Nat) ∧
    (runSchedule infoW bdW envTrivial [0, 1] 10).executed = [0] ++ 1 :: [] ∧
    (0 : Nat) ∈ ([0] : List Nat) :=
  ⟨rfl, by decide, by decide, by decide, by decide, rfl,
    c7_execution_order infoW bdW envTrivial [0, 1] 10 (by decide) 0 1 0 (by decide)
      (by decide) (by decide) [0] [] rfl⟩

end BuildExact
